import Mathlib

/-!
Shallow embedding of `src/src/map.hpp`: an AVL-tree-backed ordered map
(`sjtu::map`).  Nodes carry a key, a value, a cached height and an
allocation identifier (`id`) standing for the node's address, so that
claims about which node's memory is freed or retained can be stated.
Parent pointers of the source are represented by root-to-node paths;
the parent-climbing loops of `successor`/`predecessor` become
operations on the reversed path.  `n` (the element count) and the
fresh-address supply are threaded explicitly.
-/

namespace AvlMap

/-- Direction taken at a node when descending: left or right child. -/
inductive Dir where
  | L
  | R
deriving DecidableEq, Repr

/-- A node's position: the list of turns taken from the root, mirroring
the chain of parent pointers in the source. -/
abbrev Path := List Dir

/-- The tree of `Node` records: payload `(key, val)`, cached height `ht`,
and an allocation id standing for the node's address. -/
inductive Tree (K V : Type) where
  | leaf
  | node (l : Tree K V) (id : Nat) (key : K) (val : V) (ht : Nat) (r : Tree K V)
deriving DecidableEq, Repr

/-- The two error kinds the container signals (`index_out_of_bound`,
`invalid_iterator`). -/
inductive Err where
  | indexOutOfBound
  | invalidIterator
deriving DecidableEq, Repr

variable {K V : Type}

/-- `h(Node*)`: cached height, 0 for an absent node. -/
def h : Tree K V → Nat
  | .leaf => 0
  | .node _ _ _ _ ht _ => ht

/-- `max2` from the source. -/
def max2 (a b : Nat) : Nat := if a > b then a else b

/-- `upd(Node*)`: recompute the node's cached height from its children's
cached heights. -/
def updNode : Tree K V → Tree K V
  | .leaf => .leaf
  | .node l id k v _ r => .node l id k v (1 + max2 (h l) (h r)) r

/-- `bf(Node*)`: balance factor, `h(left) - h(right)` as a signed value. -/
def bf : Tree K V → Int
  | .leaf => 0
  | .node l _ _ _ _ r => (h l : Int) - (h r : Int)

/-- `rotateRight(y)`: `x = y->left` becomes the subtree root; heights of
the two rotated nodes are recomputed (`upd(y); upd(x)`).  The catch-all
branch models the precondition `y->left != nullptr`; `rebalance` never
reaches it on a height-correct tree. -/
def rotateRight : Tree K V → Tree K V
  | .node (.node a xid xk xv xh b) yid yk yv yh c =>
      updNode (.node a xid xk xv xh (updNode (.node b yid yk yv yh c)))
  | t => t

/-- `rotateLeft(x)`: mirror image of `rotateRight`. -/
def rotateLeft : Tree K V → Tree K V
  | .node a xid xk xv xh (.node b yid yk yv yh c) =>
      updNode (.node (updNode (.node a xid xk xv xh b)) yid yk yv yh c)
  | t => t

/-- `rebalance(node)`: `upd(node)`, then classify by balance factor and
apply the LL/LR/RR/RL rotation scheme of the source. -/
def rebalance (t : Tree K V) : Tree K V :=
  match t with
  | .leaf => .leaf
  | .node l id k v _ r =>
      let b := bf (Tree.node l id k v (1 + max2 (h l) (h r)) r)
      if b > 1 then
        if bf l < 0 then
          rotateRight (.node (rotateLeft l) id k v (1 + max2 (h l) (h r)) r)
        else
          rotateRight (.node l id k v (1 + max2 (h l) (h r)) r)
      else if b < -1 then
        if bf r > 0 then
          rotateLeft (.node l id k v (1 + max2 (h l) (h r)) (rotateRight r))
        else
          rotateLeft (.node l id k v (1 + max2 (h l) (h r)) r)
      else
        .node l id k v (1 + max2 (h l) (h r)) r

variable (cmp : K → K → Bool)

/-- `findNode(key)`: iterative descent by comparator; returns the node's
content `(id, key, val)` or `none`. -/
def findNode : Tree K V → K → Option (Nat × K × V)
  | .leaf, _ => none
  | .node l id k v _ r, key =>
      if cmp key k then findNode l key
      else if cmp k key then findNode r key
      else some (id, k, v)

/-- Result of `insertNode`: new subtree root, the `inserted` flag, the
node holding the key (`*insertedPtr`, as its id), and the updated count. -/
structure InsResult (K V : Type) where
  tree : Tree K V
  inserted : Bool
  ptr : Nat
  n : Nat
deriving DecidableEq, Repr

/-- `insertNode`: recursive descent; a new node (with fresh id and
height 1) is created at an absent slot and `n` incremented; on key
equivalence the existing node is returned unchanged; otherwise the
current node is rebalanced on the way back up. -/
def insertNode : Tree K V → K × V → Nat → Nat → InsResult K V
  | .leaf, val, fresh, n =>
      ⟨.node .leaf fresh val.1 val.2 1 .leaf, true, fresh, n + 1⟩
  | .node l id k v ht r, val, fresh, n =>
      if cmp val.1 k then
        let res := insertNode l val fresh n
        ⟨rebalance (.node res.tree id k v ht r), res.inserted, res.ptr, res.n⟩
      else if cmp k val.1 then
        let res := insertNode r val fresh n
        ⟨rebalance (.node l id k v ht res.tree), res.inserted, res.ptr, res.n⟩
      else
        ⟨.node l id k v ht r, false, id, n⟩

/-- `minNode(x)`: leftmost node's content, or `none` for an absent tree. -/
def minNode : Tree K V → Option (Nat × K × V)
  | .leaf => none
  | .node .leaf id k v _ _ => some (id, k, v)
  | .node (.node a b c d e f) _ _ _ _ _ => minNode (.node a b c d e f)

/-- `maxNode(x)`: rightmost node's content, or `none` for an absent tree. -/
def maxNode : Tree K V → Option (Nat × K × V)
  | .leaf => none
  | .node _ id k v _ .leaf => some (id, k, v)
  | .node _ _ _ _ _ (.node a b c d e f) => maxNode (.node a b c d e f)

/-- Result of `eraseByNode`: new subtree root, the `erased` flag and the
updated count. -/
structure EraseResult (K V : Type) where
  tree : Tree K V
  erased : Bool
  n : Nat
deriving DecidableEq, Repr

/-- `eraseByNode(node, target)`: descent guided by comparing the target's
key, match decided by node identity (the id).  A node with at most one
child is spliced out (no rebalance on the spot, `--n`); a node with two
children receives its in-order successor's key and value in place, the
successor is erased from the right subtree (its `erased2` flag is
discarded), and the node is rebalanced. -/
def eraseByNode : Tree K V → Nat → K → Nat → EraseResult K V
  | .leaf, _, _, n => ⟨.leaf, false, n⟩
  | .node l id k v ht r, tid, tk, n =>
      if id = tid then
        match l, r with
        | .leaf, _ => ⟨r, true, n - 1⟩
        | .node a b c d e f, .leaf => ⟨.node a b c d e f, true, n - 1⟩
        | .node a b c d e f, .node a2 b2 c2 d2 e2 f2 =>
            match minNode (Tree.node a2 b2 c2 d2 e2 f2) with
            | some (sid, sk, sv) =>
                let res := eraseByNode (Tree.node a2 b2 c2 d2 e2 f2) sid sk n
                ⟨rebalance (.node (Tree.node a b c d e f) id sk sv ht res.tree), true, res.n⟩
            | none => ⟨.node l id k v ht r, false, n⟩
      else if cmp tk k then
        let res := eraseByNode l tid tk n
        ⟨rebalance (.node res.tree id k v ht r), res.erased, res.n⟩
      else
        let res := eraseByNode r tid tk n
        ⟨rebalance (.node l id k v ht res.tree), res.erased, res.n⟩

/-- `clone(x, parent)`: deep copy; fresh nodes (fresh ids, drawn from a
counter) with the same payload and cached height. -/
def clone : Tree K V → Nat → Tree K V × Nat
  | .leaf, c => (.leaf, c)
  | .node l _ k v ht r, c =>
      let lres := clone l (c + 1)
      let rres := clone r lres.2
      (.node lres.1 c k v ht rres.1, rres.2)

/-- In-order traversal of node contents `(id, key, val)`. -/
def toList : Tree K V → List (Nat × K × V)
  | .leaf => []
  | .node l id k v _ r => toList l ++ (id, k, v) :: toList r

/-- In-order key sequence. -/
def keys (t : Tree K V) : List K := (toList t).map (fun x => x.2.1)

/-- In-order id (address) sequence. -/
def ids (t : Tree K V) : List Nat := (toList t).map (fun x => x.1)

/-- Content reachable through a node address: dereferencing the id. -/
def lookupId (t : Tree K V) (i : Nat) : Option (K × V) :=
  ((toList t).find? (fun x => x.1 = i)).map (fun x => (x.2.1, x.2.2))

/-- Subtree rooted at the node a path leads to. -/
def subAt : Tree K V → Path → Option (Tree K V)
  | t, [] => some t
  | .node l _ _ _ _ _, .L :: p => subAt l p
  | .node _ _ _ _ _ r, .R :: p => subAt r p
  | .leaf, _ :: _ => none

/-- Content `(id, key, val)` of the node a path leads to. -/
def contentAt (t : Tree K V) (p : Path) : Option (Nat × K × V) :=
  match subAt t p with
  | some (.node _ id k v _ _) => some (id, k, v)
  | _ => none

/-- Left spine: path from a subtree root to its leftmost node
(the `while (x->left) x = x->left` loop of `minNode`). -/
def lspine : Tree K V → Path
  | .node (.node a b c d e f) _ _ _ _ _ => .L :: lspine (Tree.node a b c d e f)
  | _ => []

/-- Right spine: path from a subtree root to its rightmost node
(the `while (x->right) x = x->right` loop of `maxNode`). -/
def rspine : Tree K V → Path
  | .node _ _ _ _ _ (.node a b c d e f) => .R :: rspine (Tree.node a b c d e f)
  | _ => []

/-- Position of `minNode(root)`: `none` models the null pointer. -/
def minPathOpt : Tree K V → Option Path
  | .leaf => none
  | .node a b c d e f => some (lspine (Tree.node a b c d e f))

/-- The climbing loop of `predecessor`, on the reversed path (deepest
step first): climb while the current node is a left child; on arriving
via a right-child edge the parent is the predecessor; at the root the
result is null. -/
def climbPredRev : Path → Option Path
  | [] => none
  | .L :: rest => climbPredRev rest
  | .R :: rest => some rest.reverse

/-- `predecessor`'s parent-climbing phase, as seen from the node's path. -/
def climbPred (p : Path) : Option Path := climbPredRev p.reverse

/-- `predecessor(x)`: if the node has a left child, the rightmost node of
that child; otherwise climb parent links.  `none` models a null result
(no predecessor, or `x` itself null/absent). -/
def predPath (t : Tree K V) (p : Path) : Option Path :=
  match subAt t p with
  | some (.node (.node a b c d e f) _ _ _ _ _) =>
      some (p ++ .L :: rspine (Tree.node a b c d e f))
  | some (.node .leaf _ _ _ _ _) => climbPred p
  | _ => none

/-- All node positions in in-order sequence. -/
def inorderPaths : Tree K V → List Path
  | .leaf => []
  | .node l _ _ _ _ r =>
      (inorderPaths l).map (.L :: ·) ++ [] :: (inorderPaths r).map (.R :: ·)

/-- An iterator: current position (`none` = past-the-end) and whether it
is bound to the container (`owner != nullptr`). -/
structure Iter where
  cur : Option Path
  bound : Bool
deriving DecidableEq, Repr

/-- Observable outcome of a dereference: a payload, a thrown
`invalid_iterator`, or a returned null pointer. -/
inductive DerefResult (K V : Type) where
  | ok (k : K) (v : V)
  | err
  | nullPtr
deriving DecidableEq, Repr

/-- `iterator::operator*`: throws `invalid_iterator` when unbound or
past-the-end, otherwise returns the node's key/value pair. -/
def iterStar (t : Tree K V) (it : Iter) : DerefResult K V :=
  if it.bound = false then .err
  else
    match it.cur with
    | none => .err
    | some p =>
        match contentAt t p with
        | some (_, k, v) => .ok k v
        | none => .err

/-- `iterator::operator->` (`noexcept`): returns a null pointer when
unbound or past-the-end, otherwise a pointer to the node's pair. -/
def iterArrow (t : Tree K V) (it : Iter) : DerefResult K V :=
  if it.bound = false then .nullPtr
  else
    match it.cur with
    | none => .nullPtr
    | some p =>
        match contentAt t p with
        | some (_, k, v) => .ok k v
        | none => .nullPtr

/-- `iterator::operator--`: throws when unbound; from past-the-end lands
on `maxNode(root)` of a non-empty tree (throws when empty); throws when
at `minNode(root)`; otherwise steps to `predecessor(cur)`. -/
def iterDec (t : Tree K V) (it : Iter) : Except Err (Option Path) :=
  if it.bound = false then .error .invalidIterator
  else
    match it.cur with
    | none =>
        match t with
        | .leaf => .error .invalidIterator
        | .node a b c d e f => .ok (some (rspine (Tree.node a b c d e f)))
    | some p =>
        if minPathOpt t = some p then .error .invalidIterator
        else .ok (predPath t p)

/-- The map object: root, element count `n`, and the fresh-address
supply standing for the allocator. -/
structure MapState (K V : Type) where
  root : Tree K V
  n : Nat
  nextId : Nat
deriving DecidableEq, Repr

/-- The default-constructed map. -/
def mapEmpty : MapState K V := ⟨.leaf, 0, 0⟩

/-- `insert(value)`: returns the new state, the success flag, and the id
of the node the returned iterator points to. -/
def mapInsert (m : MapState K V) (val : K × V) : MapState K V × Bool × Nat :=
  let res := insertNode cmp m.root val m.nextId m.n
  (⟨res.tree, res.n, if res.inserted then m.nextId + 1 else m.nextId⟩,
   res.inserted, res.ptr)

/-- `erase(pos)`: throws on a past-the-end position; otherwise runs
`eraseByNode` with the position's node (its id and key) and throws if
nothing was erased. -/
def mapErase (m : MapState K V) (cur : Option (Nat × K)) :
    Except Err (MapState K V) :=
  match cur with
  | none => .error .invalidIterator
  | some (tid, tk) =>
      let res := eraseByNode cmp m.root tid tk m.n
      if res.erased then .ok ⟨res.tree, res.n, m.nextId⟩
      else .error .invalidIterator

/-- `at(key)`: lookup first; throws `index_out_of_bound` when absent,
otherwise yields the mapped value; the state is returned unchanged. -/
def mapAt (m : MapState K V) (key : K) : Except Err V × MapState K V :=
  match findNode cmp m.root key with
  | none => (.error .indexOutOfBound, m)
  | some (_, _, v) => (.ok v, m)

/-- `find(key)`: the content of the node the returned iterator points
to, `none` for past-the-end. -/
def mapFind (m : MapState K V) (key : K) : Option (Nat × K × V) :=
  findNode cmp m.root key

/-- `count(key)`. -/
def mapCount (m : MapState K V) (key : K) : Nat :=
  match findNode cmp m.root key with
  | some _ => 1
  | none => 0

variable (d0 : V)

/-- `operator[](key)` (read-write): return the present value unchanged,
or insert a default-constructed value and return a reference to it. -/
def mapBracket (m : MapState K V) (key : K) : V × MapState K V :=
  match findNode cmp m.root key with
  | some (_, _, v) => (v, m)
  | none =>
      let res := insertNode cmp m.root (key, d0) m.nextId m.n
      (((lookupId res.tree res.ptr).getD (key, d0)).2,
       ⟨res.tree, res.n, m.nextId + 1⟩)

/-- `operator[](key) const` (read-only): behaves like `at`, throwing
`index_out_of_bound` on an absent key, never inserting. -/
def mapBracketConst (m : MapState K V) (key : K) : Except Err V :=
  match findNode cmp m.root key with
  | none => .error .indexOutOfBound
  | some (_, _, v) => .ok v

/-- `begin()`: iterator at `minNode(root)` (past-the-end when empty). -/
def mapBegin (m : MapState K V) : Iter := ⟨minPathOpt m.root, true⟩

/-- `cbegin()`: same position as `begin()`. -/
def mapCBegin (m : MapState K V) : Iter := ⟨minPathOpt m.root, true⟩

/-- `end()` / `cend()`: the past-the-end iterator. -/
def mapEnd (m : MapState K V) : Iter := ⟨none, true⟩

/-- `empty()`. -/
def mapIsEmpty (m : MapState K V) : Bool := m.n == 0

/-- `clear()`: all nodes destroyed, root reset, count zeroed. -/
def mapClear (m : MapState K V) : MapState K V := ⟨.leaf, 0, m.nextId⟩

/-- Copy construction / the deep-copy phase of copy assignment:
`clone` the whole tree into fresh nodes, copy `n`. -/
def mapCopy (m : MapState K V) : MapState K V :=
  let res := clone m.root m.nextId
  ⟨res.1, m.n, res.2⟩

/-- A public mutating operation, for stating invariants over arbitrary
operation sequences. -/
inductive Op (K V : Type) where
  | ins (k : K) (v : V)
  | del (k : K)
  | idx (k : K)
  | clr
  | cpy
deriving Repr

/-- Run one public operation: `ins` is `insert`, `del` is
`erase(find(k))` when the key is present (a failed erase leaves the map
unchanged), `idx` is `operator[]`, `clr` is `clear()`, `cpy` replaces
the map by a deep copy. -/
def applyOp (m : MapState K V) : Op K V → MapState K V
  | .ins k v => (mapInsert cmp m (k, v)).1
  | .del k =>
      match findNode cmp m.root k with
      | some (i, k2, _) =>
          match mapErase cmp m (some (i, k2)) with
          | .ok m2 => m2
          | .error _ => m
      | none => m
  | .idx k => (mapBracket cmp d0 m k).2
  | .clr => mapClear m
  | .cpy => mapCopy m

/-- Run a sequence of public operations from the empty map. -/
def applyOps (ops : List (Op K V)) : MapState K V :=
  ops.foldl (applyOp cmp d0) mapEmpty

/-- True (recomputed) height of a subtree. -/
def realH : Tree K V → Nat
  | .leaf => 0
  | .node l _ _ _ _ r => 1 + max (realH l) (realH r)

/-- Cached heights are consistent: every node's `ht` field is
`1 + max2` of its children's cached heights. -/
def heightOk : Tree K V → Prop
  | .leaf => True
  | .node l _ _ _ ht r => ht = 1 + max2 (h l) (h r) ∧ heightOk l ∧ heightOk r

/-- AVL balance on cached heights. -/
def balanced : Tree K V → Prop
  | .leaf => True
  | .node l _ _ _ _ r => h l ≤ h r + 1 ∧ h r ≤ h l + 1 ∧ balanced l ∧ balanced r

/-- AVL balance on true heights (the spec's invariant 3). -/
def realBalanced : Tree K V → Prop
  | .leaf => True
  | .node l _ _ _ _ r =>
      realH l ≤ realH r + 1 ∧ realH r ≤ realH l + 1 ∧ realBalanced l ∧ realBalanced r

/-- Every cached height field equals `1 + max` of the children's true
heights (the spec's invariant 4). -/
def htCacheOk : Tree K V → Prop
  | .leaf => True
  | .node l _ _ _ ht r =>
      ht = 1 + max (realH l) (realH r) ∧ htCacheOk l ∧ htCacheOk r

/-- Key equivalence induced by the comparator: neither key compares
before the other. -/
def equivK (a b : K) : Prop := cmp a b = false ∧ cmp b a = false

/-- The comparator is a strict weak order (the container's contract for
`Compare`): irreflexive, transitive, and compatible with the induced
equivalence on either side. -/
structure IsSWO (cmp : K → K → Bool) : Prop where
  irrefl : ∀ a, cmp a a = false
  trans : ∀ a b c, cmp a b = true → cmp b c = true → cmp a c = true
  compL : ∀ a b c, cmp a b = true → equivK cmp b c → cmp a c = true
  compR : ∀ a b c, equivK cmp a b → cmp b c = true → cmp a c = true

/-- The order invariant, stated on the traversal: in-order keys are
pairwise strictly ascending under the comparator. -/
def sortedKeys (t : Tree K V) : Prop :=
  (keys t).Pairwise (fun a b => cmp a b = true)

instance decHeightOk : (t : Tree K V) → Decidable (heightOk t)
  | .leaf => .isTrue trivial
  | .node l _ _ _ ht r =>
      have dl := decHeightOk l
      have dr := decHeightOk r
      inferInstanceAs (Decidable (_ ∧ _ ∧ _))

instance decBalanced : (t : Tree K V) → Decidable (balanced t)
  | .leaf => .isTrue trivial
  | .node l _ _ _ _ r =>
      have dl := decBalanced l
      have dr := decBalanced r
      inferInstanceAs (Decidable (_ ∧ _ ∧ _ ∧ _))

instance decRealBalanced : (t : Tree K V) → Decidable (realBalanced t)
  | .leaf => .isTrue trivial
  | .node l _ _ _ _ r =>
      have dl := decRealBalanced l
      have dr := decRealBalanced r
      inferInstanceAs (Decidable (_ ∧ _ ∧ _ ∧ _))

instance decHtCacheOk : (t : Tree K V) → Decidable (htCacheOk t)
  | .leaf => .isTrue trivial
  | .node l _ _ _ _ r =>
      have dl := decHtCacheOk l
      have dr := decHtCacheOk r
      inferInstanceAs (Decidable (_ ∧ _ ∧ _))

instance decEquivK (a b : K) : Decidable (equivK cmp a b) :=
  inferInstanceAs (Decidable (_ ∧ _))

instance decSortedKeys (t : Tree K V) : Decidable (sortedKeys cmp t) :=
  inferInstanceAs (Decidable ((keys t).Pairwise _))

/-- The representation invariant of a map object: order, height-cache
consistency, balance, count correctness, and freshness/uniqueness of
node addresses. -/
def Inv (m : MapState K V) : Prop :=
  sortedKeys cmp m.root ∧ heightOk m.root ∧ balanced m.root ∧
  m.n = (toList m.root).length ∧
  (∀ i ∈ ids m.root, i < m.nextId) ∧ (ids m.root).Nodup

instance decInv [DecidableEq K] (m : MapState K V) : Decidable (Inv cmp m) :=
  inferInstanceAs (Decidable (_ ∧ _ ∧ _ ∧ _ ∧ _ ∧ _))

/-- The comparator used by concrete instantiations: `std::less<Nat>`. -/
def natLt : Nat → Nat → Bool := fun a b => decide (a < b)

/-- A concrete three-node tree used by instantiations: 2 at the root
(address 0), 1 to its left (address 1), 3 to its right (address 2). -/
def exT3 : Tree Nat Nat :=
  Tree.node (Tree.node Tree.leaf 1 1 10 1 Tree.leaf) 0 2 20 2
    (Tree.node Tree.leaf 2 3 30 1 Tree.leaf)

/-- The map state holding `exT3`. -/
def exM3 : MapState Nat Nat := ⟨exT3, 3, 3⟩

/-! ## Basic lemmas -/

theorem max2_eq_max (a b : Nat) : max2 a b = max a b := by
  unfold max2; split <;> omega

@[simp]
theorem heightOk_leaf : heightOk (Tree.leaf : Tree K V) := trivial

@[simp]
theorem heightOk_node {l r : Tree K V} {id : Nat} {k : K} {v : V} {ht : Nat} :
    heightOk (Tree.node l id k v ht r) ↔
      ht = 1 + max2 (h l) (h r) ∧ heightOk l ∧ heightOk r := Iff.rfl

@[simp]
theorem balanced_leaf : balanced (Tree.leaf : Tree K V) := trivial

@[simp]
theorem balanced_node {l r : Tree K V} {id : Nat} {k : K} {v : V} {ht : Nat} :
    balanced (Tree.node l id k v ht r) ↔
      h l ≤ h r + 1 ∧ h r ≤ h l + 1 ∧ balanced l ∧ balanced r := Iff.rfl

@[simp]
theorem h_leaf : h (Tree.leaf : Tree K V) = 0 := rfl

@[simp]
theorem h_node {l r : Tree K V} {id : Nat} {k : K} {v : V} {ht : Nat} :
    h (Tree.node l id k v ht r) = ht := rfl

@[simp]
theorem toList_leaf : toList (Tree.leaf : Tree K V) = [] := rfl

@[simp]
theorem toList_node {l r : Tree K V} {id : Nat} {k : K} {v : V} {ht : Nat} :
    toList (Tree.node l id k v ht r) = toList l ++ (id, k, v) :: toList r := rfl

theorem toList_updNode (t : Tree K V) : toList (updNode t) = toList t := by
  cases t <;> rfl

theorem toList_rotateRight (t : Tree K V) : toList (rotateRight t) = toList t := by
  match t with
  | .leaf => rfl
  | .node .leaf _ _ _ _ _ => rfl
  | .node (.node a xid xk xv xh b) yid yk yv yh c =>
      simp [rotateRight, updNode, toList]

theorem toList_rotateLeft (t : Tree K V) : toList (rotateLeft t) = toList t := by
  match t with
  | .leaf => rfl
  | .node _ _ _ _ _ .leaf => rfl
  | .node a xid xk xv xh (.node b yid yk yv yh c) =>
      simp [rotateLeft, updNode, toList]

theorem toList_rebalance (t : Tree K V) : toList (rebalance t) = toList t := by
  match t with
  | .leaf => rfl
  | .node l id k v ht r =>
      simp only [rebalance]
      split
      · split
        · rw [toList_rotateRight]; simp [toList_rotateLeft]
        · rw [toList_rotateRight]; simp [toList]
      · split
        · split
          · rw [toList_rotateLeft]; simp [toList_rotateRight]
          · rw [toList_rotateLeft]; simp [toList]
        · simp [toList]

theorem rebalance_eq_self {t : Tree K V} (hok : heightOk t) (hb : balanced t) :
    rebalance t = t := by
  match t with
  | .leaf => rfl
  | .node l id k v ht r =>
      obtain ⟨hht, _, _⟩ := hok
      obtain ⟨hb1, hb2, _, _⟩ := hb
      simp only [rebalance, bf, h_node]
      rw [if_neg (by omega), if_neg (by omega), ← hht]

/-! ## The AVL rebalance lemma -/

theorem rebalance_avl {l r : Tree K V} (id : Nat) (k : K) (v : V) (ht0 : Nat)
    (hokl : heightOk l) (hokr : heightOk r) (hbl : balanced l) (hbr : balanced r)
    (hd1 : h l ≤ h r + 2) (hd2 : h r ≤ h l + 2) :
    heightOk (rebalance (Tree.node l id k v ht0 r)) ∧
    balanced (rebalance (Tree.node l id k v ht0 r)) ∧
    max (h l) (h r) ≤ h (rebalance (Tree.node l id k v ht0 r)) ∧
    h (rebalance (Tree.node l id k v ht0 r)) ≤ 1 + max (h l) (h r) ∧
    (h l ≤ h r + 1 → h r ≤ h l + 1 →
      rebalance (Tree.node l id k v ht0 r) = Tree.node l id k v (1 + max2 (h l) (h r)) r) := by
  by_cases hc1 : h r + 2 ≤ h l
  · -- left heavy: h l = h r + 2
    have hleq : h l = h r + 2 := by omega
    cases l with
    | leaf => simp at hleq
    | node ll lid lk lv lht lr =>
        obtain ⟨lhh, hokll, hoklr⟩ := hokl
        obtain ⟨lb1, lb2, hbll, hblr⟩ := hbl
        rw [max2_eq_max] at lhh
        simp only [h_node] at hleq lb1 lb2 hd1 hd2
        simp only [rebalance, h_node]
        rw [if_pos (by simp only [bf, h_node]; omega)]
        by_cases hc2 : bf (Tree.node ll lid lk lv lht lr) < 0
        · -- LR double rotation
          rw [if_pos hc2]
          simp only [bf, h_node] at hc2
          cases lr with
          | leaf => simp at hc2; omega
          | node m1 mid mk mv mht m2 =>
              obtain ⟨mhh, hokm1, hokm2⟩ := hoklr
              obtain ⟨mb1, mb2, hbm1, hbm2⟩ := hblr
              rw [max2_eq_max] at mhh
              simp only [h_node] at hc2 lb1 lb2 lhh
              simp only [rotateLeft, rotateRight, updNode, h_node]
              refine ⟨⟨?_, ⟨?_, hokll, hokm1⟩, ⟨?_, hokm2, hokr⟩⟩,
                      ⟨?_, ?_, ⟨?_, ?_, hbll, hbm1⟩, ⟨?_, ?_, hbm2, hbr⟩⟩, ?_, ?_,
                      fun h1 _ => absurd h1 (by omega)⟩ <;>
                (try simp only [h_node, max2_eq_max]) <;> omega
        · -- LL single rotation
          rw [if_neg hc2]
          simp only [bf, h_node] at hc2
          simp only [rotateRight, updNode, h_node]
          refine ⟨⟨?_, hokll, ⟨?_, hoklr, hokr⟩⟩,
                  ⟨?_, ?_, hbll, ⟨?_, ?_, hblr, hbr⟩⟩, ?_, ?_,
                  fun h1 _ => absurd h1 (by omega)⟩ <;>
            (try simp only [h_node, max2_eq_max]) <;> omega
  · by_cases hc3 : h l + 2 ≤ h r
    · -- right heavy: h r = h l + 2
      have hreq : h r = h l + 2 := by omega
      cases r with
      | leaf => simp at hreq
      | node rl rid rk rv rht rr =>
          obtain ⟨rhh, hokrl, hokrr⟩ := hokr
          obtain ⟨rb1, rb2, hbrl, hbrr⟩ := hbr
          rw [max2_eq_max] at rhh
          simp only [h_node] at hreq rb1 rb2 hd1 hd2
          simp only [rebalance, h_node]
          rw [if_neg (by simp only [bf, h_node]; omega),
              if_pos (by simp only [bf, h_node]; omega)]
          by_cases hc4 : bf (Tree.node rl rid rk rv rht rr) > 0
          · -- RL double rotation
            rw [if_pos hc4]
            simp only [bf, h_node] at hc4
            cases rl with
            | leaf => simp at hc4; omega
            | node m1 mid mk mv mht m2 =>
                obtain ⟨mhh, hokm1, hokm2⟩ := hokrl
                obtain ⟨mb1, mb2, hbm1, hbm2⟩ := hbrl
                rw [max2_eq_max] at mhh
                simp only [h_node] at hc4 rb1 rb2 rhh
                simp only [rotateLeft, rotateRight, updNode, h_node]
                refine ⟨⟨?_, ⟨?_, hokl, hokm1⟩, ⟨?_, hokm2, hokrr⟩⟩,
                        ⟨?_, ?_, ⟨?_, ?_, hbl, hbm1⟩, ⟨?_, ?_, hbm2, hbrr⟩⟩, ?_, ?_,
                        fun _ h2 => absurd h2 (by omega)⟩ <;>
                  (try simp only [h_node, max2_eq_max]) <;> omega
          · -- RR single rotation
            rw [if_neg hc4]
            simp only [bf, h_node] at hc4
            simp only [rotateLeft, updNode, h_node]
            refine ⟨⟨?_, ⟨?_, hokl, hokrl⟩, hokrr⟩,
                    ⟨?_, ?_, ⟨?_, ?_, hbl, hbrl⟩, hbrr⟩, ?_, ?_,
                    fun _ h2 => absurd h2 (by omega)⟩ <;>
              (try simp only [h_node, max2_eq_max]) <;> omega
    · -- within tolerance: no rotation
      simp only [rebalance, h_node]
      rw [if_neg (by simp only [bf, h_node]; omega),
          if_neg (by simp only [bf, h_node]; omega)]
      refine ⟨⟨rfl, hokl, hokr⟩, ⟨by omega, by omega, hbl, hbr⟩, ?_, ?_, fun _ _ => rfl⟩ <;>
        (try simp only [h_node, max2_eq_max]) <;> omega

theorem minNode_isSome :
    ∀ (l : Tree K V) (id : Nat) (k : K) (v : V) (ht : Nat) (r : Tree K V),
      ∃ s, minNode (Tree.node l id k v ht r) = some s := by
  intro l
  induction l with
  | leaf => exact fun id k v ht r => ⟨(id, k, v), rfl⟩
  | node a b c d e f iha _ =>
      intro id k v ht r
      simpa [minNode] using iha b c d e f

/-! ## AVL preservation by insertion and deletion -/

theorem insertNode_avl (t : Tree K V) (val : K × V) (fresh n : Nat) :
    heightOk t → balanced t →
    heightOk (insertNode cmp t val fresh n).tree ∧
    balanced (insertNode cmp t val fresh n).tree ∧
    h t ≤ h (insertNode cmp t val fresh n).tree ∧
    h (insertNode cmp t val fresh n).tree ≤ h t + 1 := by
  induction t with
  | leaf =>
      intro _ _
      simp [insertNode, max2]
  | node l id k v ht r ihl ihr =>
      intro hok hb
      obtain ⟨hht, hokl, hokr⟩ := hok
      obtain ⟨hb1, hb2, hbl, hbr⟩ := hb
      rw [max2_eq_max] at hht
      rw [insertNode]
      split
      · -- descend left
        dsimp only
        obtain ⟨i1, i2, i3, i4⟩ := ihl hokl hbl
        obtain ⟨c1, c2, c3, c4, c5⟩ :=
          rebalance_avl (r := r) id k v ht i1 hokr i2 hbr (by omega) (by omega)
        refine ⟨c1, c2, ?_, ?_⟩
        · by_cases hcase : h (insertNode cmp l val fresh n).tree ≤ h r + 1
          · rw [c5 hcase (by omega)]
            simp only [h_node, max2_eq_max]
            omega
          · simp only [h_node]
            omega
        · simp only [h_node]
          omega
      · split
        · -- descend right
          dsimp only
          obtain ⟨i1, i2, i3, i4⟩ := ihr hokr hbr
          obtain ⟨c1, c2, c3, c4, c5⟩ :=
            rebalance_avl (l := l) id k v ht hokl i1 hbl i2 (by omega) (by omega)
          refine ⟨c1, c2, ?_, ?_⟩
          · by_cases hcase : h (insertNode cmp r val fresh n).tree ≤ h l + 1
            · rw [c5 (by omega) hcase]
              simp only [h_node, max2_eq_max]
              omega
            · simp only [h_node]
              omega
          · simp only [h_node]
            omega
        · -- equivalent key: unchanged
          dsimp only
          refine ⟨⟨?_, hokl, hokr⟩, ⟨hb1, hb2, hbl, hbr⟩, le_refl _, by omega⟩
          rw [max2_eq_max]
          exact hht

set_option maxHeartbeats 1000000 in
theorem eraseByNode_avl (t : Tree K V) (tid : Nat) (tk : K) (n : Nat) :
    heightOk t → balanced t →
    heightOk (eraseByNode cmp t tid tk n).tree ∧
    balanced (eraseByNode cmp t tid tk n).tree ∧
    h (eraseByNode cmp t tid tk n).tree ≤ h t ∧
    h t ≤ h (eraseByNode cmp t tid tk n).tree + 1 := by
  induction t generalizing tid tk n with
  | leaf =>
      intro _ _
      simp [eraseByNode]
  | node l id k v ht r ihl ihr =>
      intro hok hb
      obtain ⟨hht, hokl, hokr⟩ := hok
      obtain ⟨hb1, hb2, hbl, hbr⟩ := hb
      rw [max2_eq_max] at hht
      rw [eraseByNode.eq_def]
      dsimp only
      split
      · -- the target is this node
        cases l with
        | leaf =>
            dsimp only
            refine ⟨hokr, hbr, ?_, ?_⟩ <;>
              simp only [h_node, h_leaf] at hht ⊢ <;> omega
        | node a b c d e f =>
            cases r with
            | leaf =>
                dsimp only
                refine ⟨hokl, hbl, ?_, ?_⟩ <;>
                  simp only [h_node, h_leaf] at hht ⊢ <;> omega
            | node a2 b2 c2 d2 e2 f2 =>
                obtain ⟨⟨sid, sk, sv⟩, hs⟩ := minNode_isSome a2 b2 c2 d2 e2 f2
                dsimp only
                rw [hs]
                dsimp only
                obtain ⟨i1, i2, i3, i4⟩ := ihr sid sk n hokr hbr
                obtain ⟨w, hw⟩ :
                    ∃ w, eraseByNode cmp (Tree.node a2 b2 c2 d2 e2 f2) sid sk n = w :=
                  ⟨_, rfl⟩
                rw [hw] at i1 i2 i3 i4 ⊢
                obtain ⟨q1, q2, q3, q4, q5⟩ :=
                  rebalance_avl id sk sv ht hokl i1 hbl i2 (by omega) (by omega)
                refine ⟨q1, q2, ?_, ?_⟩
                · simp only [h_node]
                  omega
                · by_cases hcase : h (Tree.node a b c d e f) ≤ h w.tree + 1
                  · rw [q5 hcase (by omega)]
                    simp only [h_node, max2_eq_max]
                    omega
                  · simp only [h_node]
                    omega
      · split
        · -- descend left
          dsimp only
          obtain ⟨i1, i2, i3, i4⟩ := ihl tid tk n hokl hbl
          obtain ⟨q1, q2, q3, q4, q5⟩ :=
            rebalance_avl (r := r) id k v ht i1 hokr i2 hbr (by omega) (by omega)
          refine ⟨q1, q2, ?_, ?_⟩
          · simp only [h_node]
            omega
          · by_cases hcase : h r ≤ h (eraseByNode cmp l tid tk n).tree + 1
            · rw [q5 (by omega) hcase]
              simp only [h_node, max2_eq_max]
              omega
            · simp only [h_node]
              omega
        · -- descend right
          dsimp only
          obtain ⟨i1, i2, i3, i4⟩ := ihr tid tk n hokr hbr
          obtain ⟨q1, q2, q3, q4, q5⟩ :=
            rebalance_avl (l := l) id k v ht hokl i1 hbl i2 (by omega) (by omega)
          refine ⟨q1, q2, ?_, ?_⟩
          · simp only [h_node]
            omega
          · by_cases hcase : h l ≤ h (eraseByNode cmp r tid tk n).tree + 1
            · rw [q5 hcase (by omega)]
              simp only [h_node, max2_eq_max]
              omega
            · simp only [h_node]
              omega

/-! ## Strict-weak-order consequences -/

theorem IsSWO.asym {cmp : K → K → Bool} (sw : IsSWO cmp) {a b : K}
    (hab : cmp a b = true) : cmp b a = false := by
  by_contra hba
  have hba2 : cmp b a = true := by
    cases hv : cmp b a
    · exact absurd hv hba
    · rfl
  have := sw.trans a b a hab hba2
  rw [sw.irrefl a] at this
  exact Bool.false_ne_true this

theorem IsSWO.not_equiv_of_lt {cmp : K → K → Bool} (sw : IsSWO cmp) {a b : K}
    (hab : cmp a b = true) : ¬ equivK cmp a b := by
  intro he
  rw [he.1] at hab
  exact Bool.false_ne_true hab

theorem equivK_symm {cmp : K → K → Bool} {a b : K} (he : equivK cmp a b) :
    equivK cmp b a := ⟨he.2, he.1⟩

/-! ## Keys, ids and traversal lemmas -/

@[simp]
theorem keys_leaf : keys (Tree.leaf : Tree K V) = [] := rfl

@[simp]
theorem keys_node {l r : Tree K V} {id : Nat} {k : K} {v : V} {ht : Nat} :
    keys (Tree.node l id k v ht r) = keys l ++ k :: keys r := by
  simp [keys, toList]

@[simp]
theorem ids_leaf : ids (Tree.leaf : Tree K V) = [] := rfl

@[simp]
theorem ids_node {l r : Tree K V} {id : Nat} {k : K} {v : V} {ht : Nat} :
    ids (Tree.node l id k v ht r) = ids l ++ id :: ids r := by
  simp [ids, toList]

theorem keys_rebalance (t : Tree K V) : keys (rebalance t) = keys t := by
  simp [keys, toList_rebalance]

theorem ids_rebalance (t : Tree K V) : ids (rebalance t) = ids t := by
  simp [ids, toList_rebalance]

theorem mem_keys_of_mem_toList {t : Tree K V} {x : Nat × K × V}
    (hx : x ∈ toList t) : x.2.1 ∈ keys t :=
  List.mem_map_of_mem _ hx

theorem mem_ids_of_mem_toList {t : Tree K V} {x : Nat × K × V}
    (hx : x ∈ toList t) : x.1 ∈ ids t :=
  List.mem_map_of_mem _ hx

theorem toList_ne_nil (l : Tree K V) (id : Nat) (k : K) (v : V) (ht : Nat)
    (r : Tree K V) : toList (Tree.node l id k v ht r) ≠ [] := by
  simp [toList]

theorem minNode_eq_head (t : Tree K V) : minNode t = (toList t).head? := by
  induction t with
  | leaf => rfl
  | node l id k v ht r ihl _ =>
      cases l with
      | leaf => simp [minNode, toList]
      | node a b c d e f =>
          have hstep : minNode (Tree.node (Tree.node a b c d e f) id k v ht r) =
              minNode (Tree.node a b c d e f) := rfl
          rw [hstep, ihl]
          cases htl : toList (Tree.node a b c d e f) with
          | nil => exact absurd htl (toList_ne_nil a b c d e f)
          | cons y ys =>
              rw [show toList (Tree.node (Tree.node a b c d e f) id k v ht r) =
                    toList (Tree.node a b c d e f) ++ (id, k, v) :: toList r from rfl,
                  htl]
              rfl

/-! ## Sorted-keys lemmas -/

theorem sortedKeys_leaf : sortedKeys cmp (Tree.leaf : Tree K V) := by
  simp [sortedKeys]

theorem sortedKeys_node_iff {l r : Tree K V} {id : Nat} {k : K} {v : V} {ht : Nat} :
    sortedKeys cmp (Tree.node l id k v ht r) ↔
      sortedKeys cmp l ∧ sortedKeys cmp r ∧
      (∀ x ∈ keys l, cmp x k = true) ∧ (∀ y ∈ keys r, cmp k y = true) ∧
      (∀ x ∈ keys l, ∀ y ∈ keys r, cmp x y = true) := by
  simp only [sortedKeys, keys_node, List.pairwise_append, List.pairwise_cons,
    List.mem_cons]
  constructor
  · rintro ⟨hl, ⟨hk, hr⟩, hcross⟩
    refine ⟨hl, hr, ?_, hk, ?_⟩
    · exact fun x hx => hcross x hx k (Or.inl rfl)
    · exact fun x hx y hy => hcross x hx y (Or.inr hy)
  · rintro ⟨hl, hr, hlk, hkr, hcross⟩
    refine ⟨hl, ⟨hkr, hr⟩, ?_⟩
    rintro x hx y (rfl | hy)
    · exact hlk x hx
    · exact hcross x hx y hy

theorem sortedKeys_rebalance {t : Tree K V} :
    sortedKeys cmp (rebalance t) ↔ sortedKeys cmp t := by
  simp [sortedKeys, keys_rebalance]

theorem sortedKeys_keys_nodup {cmp : K → K → Bool} (sw : IsSWO cmp)
    {t : Tree K V} (hs : sortedKeys cmp t) : (keys t).Nodup := by
  refine hs.imp ?_
  intro a b hab
  intro hEq
  subst hEq
  rw [sw.irrefl a] at hab
  exact Bool.false_ne_true hab

/-! ## findNode correctness on ordered trees -/

theorem findNode_some_mem {t : Tree K V} {key : K} {i : Nat} {k2 : K} {v2 : V}
    (hf : findNode cmp t key = some (i, k2, v2)) :
    (i, k2, v2) ∈ toList t ∧ equivK cmp k2 key := by
  induction t with
  | leaf => simp [findNode] at hf
  | node l id k v ht r ihl ihr =>
      rw [findNode] at hf
      by_cases h1 : cmp key k = true
      · rw [if_pos h1] at hf
        obtain ⟨hm, he⟩ := ihl hf
        exact ⟨by simp [hm], he⟩
      · rw [if_neg h1] at hf
        by_cases h2 : cmp k key = true
        · rw [if_pos h2] at hf
          obtain ⟨hm, he⟩ := ihr hf
          exact ⟨by simp [hm], he⟩
        · rw [if_neg h2] at hf
          obtain ⟨he1, he2, he3⟩ : id = i ∧ k = k2 ∧ v = v2 := by
            injection hf with hx
            injection hx with hx1 hx2
            injection hx2 with hx2 hx3
            exact ⟨hx1, hx2, hx3⟩
          subst he1
          subst he2
          subst he3
          refine ⟨by simp, ?_, ?_⟩
          · cases hv : cmp k key with
            | true => exact absurd hv h2
            | false => rfl
          · cases hv : cmp key k with
            | true => exact absurd hv h1
            | false => rfl

theorem findNode_eq_some {cmp : K → K → Bool} (sw : IsSWO cmp) {t : Tree K V}
    {key : K} {i : Nat} {k2 : K} {v2 : V}
    (hs : sortedKeys cmp t) (hmem : (i, k2, v2) ∈ toList t)
    (he : equivK cmp k2 key) : findNode cmp t key = some (i, k2, v2) := by
  induction t with
  | leaf => simp [toList] at hmem
  | node l id k v ht r ihl ihr =>
      obtain ⟨hsl, hsr, hlk, hkr, _⟩ := (sortedKeys_node_iff cmp).1 hs
      rw [findNode]
      simp only [toList_node, List.mem_append, List.mem_cons] at hmem
      rcases hmem with hm | hm | hm
      · have hx : cmp k2 k = true := hlk _ (mem_keys_of_mem_toList hm)
        have hkey : cmp key k = true := sw.compR key k2 k (equivK_symm he) hx
        rw [if_pos hkey]
        exact ihl hsl hm
      · obtain ⟨rfl, rfl, rfl⟩ : i = id ∧ k2 = k ∧ v2 = v := by
          injection hm with e1 e2
          injection e2 with e2 e3
          exact ⟨e1, e2, e3⟩
        rw [if_neg (by rw [he.2]; exact Bool.false_ne_true),
            if_neg (by rw [he.1]; exact Bool.false_ne_true)]
      · have hx : cmp k k2 = true := hkr _ (mem_keys_of_mem_toList hm)
        have hkk : cmp k key = true := sw.compL k k2 key hx he
        have hne : cmp key k = false := sw.asym hkk
        rw [if_neg (by rw [hne]; exact Bool.false_ne_true), if_pos hkk]
        exact ihr hsr hm

theorem findNode_eq_none {cmp : K → K → Bool} (sw : IsSWO cmp) {t : Tree K V}
    {key : K} (hs : sortedKeys cmp t)
    (hab : ∀ x ∈ keys t, ¬ equivK cmp x key) : findNode cmp t key = none := by
  induction t with
  | leaf => rfl
  | node l id k v ht r ihl ihr =>
      obtain ⟨hsl, hsr, _, _, _⟩ := (sortedKeys_node_iff cmp).1 hs
      rw [findNode]
      by_cases h1 : cmp key k = true
      · rw [if_pos h1]
        exact ihl hsl fun x hx => hab x (by simp [hx])
      · rw [if_neg h1]
        by_cases h2 : cmp k key = true
        · rw [if_pos h2]
          exact ihr hsr fun x hx => hab x (by simp [hx])
        · exact absurd ⟨by cases hv : cmp k key with
              | true => exact absurd hv h2
              | false => rfl,
            by cases hv : cmp key k with
              | true => exact absurd hv h1
              | false => rfl⟩ (hab k (by simp))

theorem findNode_none_not_mem {cmp : K → K → Bool} (sw : IsSWO cmp)
    {t : Tree K V} {key : K} (hs : sortedKeys cmp t)
    (hf : findNode cmp t key = none) : ∀ x ∈ keys t, ¬ equivK cmp x key := by
  intro x hx he
  simp only [keys, List.mem_map] at hx
  obtain ⟨⟨i, k2, v2⟩, hm, hx2⟩ := hx
  subst hx2
  rw [findNode_eq_some sw hs hm he] at hf
  cases hf

/-! ## Insertion: duplicate-key and new-key behaviour -/

theorem insertNode_found (t : Tree K V) (key : K) (v0 : V) (fresh n : Nat)
    {i : Nat} {k2 : K} {v2 : V} (hok : heightOk t) (hb : balanced t)
    (hf : findNode cmp t key = some (i, k2, v2)) :
    insertNode cmp t (key, v0) fresh n = ⟨t, false, i, n⟩ := by
  induction t with
  | leaf => simp [findNode] at hf
  | node l id k v ht r ihl ihr =>
      obtain ⟨hht, hokl, hokr⟩ := hok
      obtain ⟨hb1, hb2, hbl, hbr⟩ := hb
      rw [findNode] at hf
      rw [insertNode]
      by_cases h1 : cmp key k = true
      · rw [if_pos h1] at hf
        rw [if_pos h1]
        dsimp only
        rw [ihl hokl hbl hf]
        dsimp only
        rw [rebalance_eq_self (t := Tree.node l id k v ht r)
          ⟨hht, hokl, hokr⟩ ⟨hb1, hb2, hbl, hbr⟩]
      · rw [if_neg h1] at hf
        rw [if_neg h1]
        by_cases h2 : cmp k key = true
        · rw [if_pos h2] at hf
          rw [if_pos h2]
          dsimp only
          rw [ihr hokr hbr hf]
          dsimp only
          rw [rebalance_eq_self (t := Tree.node l id k v ht r)
            ⟨hht, hokl, hokr⟩ ⟨hb1, hb2, hbl, hbr⟩]
        · rw [if_neg h2] at hf
          rw [if_neg h2]
          obtain ⟨he1, _, _⟩ : id = i ∧ k = k2 ∧ v = v2 := by
            injection hf with hx
            injection hx with hx1 hx2
            injection hx2 with hx2 hx3
            exact ⟨hx1, hx2, hx3⟩
          rw [he1]

theorem insertNode_new {cmp : K → K → Bool} (sw : IsSWO cmp) (v0 : V)
    (fresh n : Nat) (t : Tree K V) (key : K) :
    sortedKeys cmp t → findNode cmp t key = none →
    (insertNode cmp t (key, v0) fresh n).inserted = true ∧
    (insertNode cmp t (key, v0) fresh n).ptr = fresh ∧
    (insertNode cmp t (key, v0) fresh n).n = n + 1 ∧
    (toList (insertNode cmp t (key, v0) fresh n).tree).Perm
      ((fresh, key, v0) :: toList t) ∧
    sortedKeys cmp (insertNode cmp t (key, v0) fresh n).tree := by
  induction t with
  | leaf =>
      intro _ _
      refine ⟨rfl, rfl, rfl, ?_, ?_⟩
      · exact List.Perm.refl _
      · simp [sortedKeys, insertNode, keys, toList]
  | node l id k v ht r ihl ihr =>
      intro hs hf
      obtain ⟨hsl, hsr, hlk, hkr, hcross⟩ := (sortedKeys_node_iff cmp).1 hs
      rw [findNode] at hf
      rw [insertNode]
      by_cases h1 : cmp key k = true
      · rw [if_pos h1] at hf
        rw [if_pos h1]
        dsimp only
        obtain ⟨i1, i2, i3, i4⟩ := ihl hsl hf
        obtain ⟨i4, i5⟩ := i4
        have hkmem : (keys (insertNode cmp l (key, v0) fresh n).tree).Perm
            (key :: keys l) := by
          have hp := i4.map (fun x : Nat × K × V => x.2.1)
          simpa [keys] using hp
        refine ⟨i1, i2, i3, ?_, ?_⟩
        · rw [toList_rebalance]
          simp only [toList_node]
          exact (i4.append_right _).trans (by rw [List.cons_append])
        · rw [sortedKeys_rebalance, sortedKeys_node_iff]
          refine ⟨i5, hsr, ?_, hkr, ?_⟩
          · intro x hx
            rcases List.mem_cons.1 (hkmem.mem_iff.1 hx) with rfl | hx2
            · exact h1
            · exact hlk x hx2
          · intro x hx y hy
            rcases List.mem_cons.1 (hkmem.mem_iff.1 hx) with rfl | hx2
            · exact sw.trans x k y h1 (hkr y hy)
            · exact hcross x hx2 y hy
      · rw [if_neg h1] at hf
        rw [if_neg h1]
        by_cases h2 : cmp k key = true
        · rw [if_pos h2] at hf
          rw [if_pos h2]
          dsimp only
          obtain ⟨i1, i2, i3, i4⟩ := ihr hsr hf
          obtain ⟨i4, i5⟩ := i4
          have hkmem : (keys (insertNode cmp r (key, v0) fresh n).tree).Perm
              (key :: keys r) := by
            have hp := i4.map (fun x : Nat × K × V => x.2.1)
            simpa [keys] using hp
          refine ⟨i1, i2, i3, ?_, ?_⟩
          · rw [toList_rebalance]
            simp only [toList_node]
            refine (List.Perm.append_left _ (List.Perm.cons _ i4)).trans ?_
            have hp := @List.perm_middle (Nat × K × V) (fresh, key, v0)
              (toList l ++ [(id, k, v)]) (toList r)
            simpa using hp
          · rw [sortedKeys_rebalance, sortedKeys_node_iff]
            refine ⟨hsl, i5, hlk, ?_, ?_⟩
            · intro y hy
              rcases List.mem_cons.1 (hkmem.mem_iff.1 hy) with rfl | hy2
              · exact h2
              · exact hkr y hy2
            · intro x hx y hy
              rcases List.mem_cons.1 (hkmem.mem_iff.1 hy) with rfl | hy2
              · exact sw.trans x k y (hlk x hx) h2
              · exact hcross x hx y hy2
        · rw [if_neg h2] at hf
          cases hf

/-! ## Deletion: content characterisation -/

set_option maxHeartbeats 1000000 in
theorem eraseByNode_found {cmp : K → K → Bool} (sw : IsSWO cmp) (t : Tree K V)
    (tid : Nat) (tk : K) (tv : V) (n : Nat) :
    sortedKeys cmp t → (ids t).Nodup → (tid, tk, tv) ∈ toList t →
    (eraseByNode cmp t tid tk n).erased = true ∧
    (eraseByNode cmp t tid tk n).n = n - 1 ∧
    (∃ pre post, keys t = pre ++ tk :: post ∧
      (keys (eraseByNode cmp t tid tk n).tree).Perm (pre ++ post)) ∧
    sortedKeys cmp (eraseByNode cmp t tid tk n).tree ∧
    (∃ fid pre2 post2, ids t = pre2 ++ fid :: post2 ∧
      (ids (eraseByNode cmp t tid tk n).tree).Perm (pre2 ++ post2)) := by
  induction t generalizing tid tk tv n with
  | leaf =>
      intro _ _ hmem
      simp [toList] at hmem
  | node l id k v ht r ihl ihr =>
      intro hs hnd hmem
      obtain ⟨hsl, hsr, hlk, hkr, hcross⟩ := (sortedKeys_node_iff cmp).1 hs
      simp only [ids_node] at hnd
      rw [List.nodup_append] at hnd
      obtain ⟨ndl, ndcr, hdisj⟩ := hnd
      rw [List.nodup_cons] at ndcr
      obtain ⟨hidr, ndr⟩ := ndcr
      have hidl : id ∉ ids l := fun hmm => hdisj hmm (List.mem_cons_self _ _)
      simp only [toList_node, List.mem_append, List.mem_cons] at hmem
      rw [eraseByNode.eq_def]
      dsimp only
      split
      · -- the target is this node
        rename_i hid
        subst hid
        obtain ⟨he2, he3⟩ : k = tk ∧ v = tv := by
          rcases hmem with hm | hm | hm
          · exact absurd (mem_ids_of_mem_toList hm) hidl
          · injection hm with hx1 hx2
            injection hx2 with hx2 hx3
            exact ⟨hx2.symm, hx3.symm⟩
          · exact absurd (mem_ids_of_mem_toList hm) hidr
        subst he2
        subst he3
        cases l with
        | leaf =>
            dsimp only
            refine ⟨rfl, rfl, ⟨[], keys r, by simp, by simp⟩, hsr,
              ⟨id, [], ids r, by simp, by simp⟩⟩
        | node a b c d e f =>
            cases r with
            | leaf =>
                dsimp only
                refine ⟨rfl, rfl, ⟨keys (Tree.node a b c d e f), [], by simp, by simp⟩,
                  hsl, ⟨id, ids (Tree.node a b c d e f), [], by simp, by simp⟩⟩
            | node a2 b2 c2 d2 e2 f2 =>
                obtain ⟨⟨sid, sk, sv⟩, hmin⟩ := minNode_isSome a2 b2 c2 d2 e2 f2
                dsimp only
                rw [hmin]
                dsimp only
                have hhd : (toList (Tree.node a2 b2 c2 d2 e2 f2)).head? =
                    some (sid, sk, sv) := by rw [← minNode_eq_head]; exact hmin
                obtain ⟨tl, htl⟩ : ∃ tl,
                    toList (Tree.node a2 b2 c2 d2 e2 f2) = (sid, sk, sv) :: tl := by
                  cases htl2 : toList (Tree.node a2 b2 c2 d2 e2 f2) with
                  | nil => exact absurd htl2 (toList_ne_nil a2 b2 c2 d2 e2 f2)
                  | cons y tl =>
                      rw [htl2] at hhd
                      injection hhd with hhd
                      exact ⟨tl, by rw [hhd]⟩
                have hsmem : (sid, sk, sv) ∈ toList (Tree.node a2 b2 c2 d2 e2 f2) := by
                  rw [htl]; exact List.mem_cons_self _ _
                obtain ⟨g1, g2, ⟨pre, post, g3a, g3b⟩, g4, fid, pre2, post2, g5a, g5b⟩ :=
                  ihr sid sk sv n hsr ndr hsmem
                have hkeysr : keys (Tree.node a2 b2 c2 d2 e2 f2) =
                    sk :: tl.map (fun x => x.2.1) := by
                  rw [keys, htl]; rfl
                have hndk := sortedKeys_keys_nodup sw hsr
                have hsknotin : sk ∉ pre ++ post := by
                  rw [g3a] at hndk
                  intro hmm
                  rcases List.mem_append.1 hmm with hmm2 | hmm2
                  · rw [List.nodup_append] at hndk
                    exact hndk.2.2 hmm2 (List.mem_cons_self _ _)
                  · rw [List.nodup_append, List.nodup_cons] at hndk
                    exact hndk.2.1.1 hmm2
                have hskmin : ∀ y ∈ pre ++ post, cmp sk y = true := by
                  intro y hy
                  have hyr : y ∈ keys (Tree.node a2 b2 c2 d2 e2 f2) := by
                    rw [g3a]
                    rcases List.mem_append.1 hy with hy2 | hy2
                    · exact List.mem_append.2 (Or.inl hy2)
                    · exact List.mem_append.2 (Or.inr (List.mem_cons_of_mem _ hy2))
                  rw [hkeysr] at hyr
                  rcases List.mem_cons.1 hyr with rfl | hy3
                  · exact absurd hy hsknotin
                  · have := hsr
                    rw [sortedKeys, hkeysr, List.pairwise_cons] at this
                    exact this.1 y hy3
                obtain ⟨w, hw⟩ :
                    ∃ w, eraseByNode cmp (Tree.node a2 b2 c2 d2 e2 f2) sid sk n = w :=
                  ⟨_, rfl⟩
                rw [hw] at g1 g2 g3b g4 g5b ⊢
                have hskr : sk ∈ keys (Tree.node a2 b2 c2 d2 e2 f2) := by
                  rw [hkeysr]; exact List.mem_cons_self _ _
                refine ⟨rfl, g2, ?_, ?_, ?_⟩
                · refine ⟨keys (Tree.node a b c d e f),
                    keys (Tree.node a2 b2 c2 d2 e2 f2), keys_node, ?_⟩
                  rw [keys_rebalance, keys_node]
                  refine List.Perm.append_left _ ?_
                  refine (List.Perm.cons _ g3b).trans ?_
                  rw [g3a]
                  exact List.perm_middle.symm
                · rw [sortedKeys_rebalance, sortedKeys_node_iff]
                  refine ⟨hsl, g4, ?_, ?_, ?_⟩
                  · intro x hx
                    exact sw.trans x k sk (hlk x hx) (hkr sk hskr)
                  · intro y hy
                    exact hskmin y (g3b.mem_iff.1 hy)
                  · intro x hx y hy
                    have hyy : y ∈ pre ++ post := g3b.mem_iff.1 hy
                    have hyr : y ∈ keys (Tree.node a2 b2 c2 d2 e2 f2) := by
                      rw [g3a]
                      rcases List.mem_append.1 hyy with hy2 | hy2
                      · exact List.mem_append.2 (Or.inl hy2)
                      · exact List.mem_append.2 (Or.inr (List.mem_cons_of_mem _ hy2))
                    exact hcross x hx y hyr
                · refine ⟨fid, ids (Tree.node a b c d e f) ++ id :: pre2, post2, ?_, ?_⟩
                  · rw [ids_node, g5a, List.append_assoc, List.cons_append]
                  · rw [ids_rebalance, ids_node, List.append_assoc, List.cons_append]
                    exact List.Perm.append_left _ (List.Perm.cons _ g5b)
      · -- descend by key comparison
        rename_i hid
        have hid2 : id ≠ tid := hid
        split
        · -- left
          rename_i hcmp
          dsimp only
          have hm : (tid, tk, tv) ∈ toList l := by
            rcases hmem with hm | hm | hm
            · exact hm
            · injection hm with hx1 hx2
              exact absurd hx1.symm hid2
            · have htkr : tk ∈ keys r := mem_keys_of_mem_toList hm
              have := hkr tk htkr
              rw [sw.asym this] at hcmp
              cases hcmp
          obtain ⟨g1, g2, ⟨pre, post, g3a, g3b⟩, g4, fid, pre2, post2, g5a, g5b⟩ :=
            ihl tid tk tv n hsl ndl hm
          have hsubk : ∀ x ∈ pre ++ post, x ∈ keys l := by
            intro x hx
            rw [g3a]
            rcases List.mem_append.1 hx with hx2 | hx2
            · exact List.mem_append.2 (Or.inl hx2)
            · exact List.mem_append.2 (Or.inr (List.mem_cons_of_mem _ hx2))
          refine ⟨g1, g2, ?_, ?_, ?_⟩
          · refine ⟨pre, post ++ k :: keys r, ?_, ?_⟩
            · simp only [keys_node, g3a, List.cons_append, List.append_assoc]
            · rw [keys_rebalance]
              simp only [keys_node]
              rw [← List.append_assoc]
              exact g3b.append_right _
          · rw [sortedKeys_rebalance, sortedKeys_node_iff]
            refine ⟨g4, hsr, ?_, hkr, ?_⟩
            · intro x hx
              exact hlk x (hsubk x (g3b.mem_iff.1 hx))
            · intro x hx y hy
              exact hcross x (hsubk x (g3b.mem_iff.1 hx)) y hy
          · refine ⟨fid, pre2, post2 ++ id :: ids r, ?_, ?_⟩
            · simp only [ids_node, g5a, List.cons_append, List.append_assoc]
            · rw [ids_rebalance]
              simp only [ids_node]
              rw [← List.append_assoc]
              exact g5b.append_right _
        · -- right
          rename_i hcmp
          dsimp only
          have hm : (tid, tk, tv) ∈ toList r := by
            rcases hmem with hm | hm | hm
            · have htkl : tk ∈ keys l := mem_keys_of_mem_toList hm
              exact absurd (hlk tk htkl) (by simpa using hcmp)
            · injection hm with hx1 hx2
              exact absurd hx1.symm hid2
            · exact hm
          obtain ⟨g1, g2, ⟨pre, post, g3a, g3b⟩, g4, fid, pre2, post2, g5a, g5b⟩ :=
            ihr tid tk tv n hsr ndr hm
          have hsubk : ∀ x ∈ pre ++ post, x ∈ keys r := by
            intro x hx
            rw [g3a]
            rcases List.mem_append.1 hx with hx2 | hx2
            · exact List.mem_append.2 (Or.inl hx2)
            · exact List.mem_append.2 (Or.inr (List.mem_cons_of_mem _ hx2))
          refine ⟨g1, g2, ?_, ?_, ?_⟩
          · refine ⟨keys l ++ k :: pre, post, ?_, ?_⟩
            · simp only [keys_node, g3a, List.cons_append, List.append_assoc]
            · rw [keys_rebalance]
              simp only [keys_node]
              rw [List.append_assoc, List.cons_append]
              exact List.Perm.append_left _ (List.Perm.cons _ g3b)
          · rw [sortedKeys_rebalance, sortedKeys_node_iff]
            refine ⟨hsl, g4, hlk, ?_, ?_⟩
            · intro y hy
              exact hkr y (hsubk y (g3b.mem_iff.1 hy))
            · intro x hx y hy
              exact hcross x hx y (hsubk y (g3b.mem_iff.1 hy))
          · refine ⟨fid, ids l ++ id :: pre2, post2, ?_, ?_⟩
            · simp only [ids_node, g5a, List.cons_append, List.append_assoc]
            · rw [ids_rebalance]
              simp only [ids_node]
              rw [List.append_assoc, List.cons_append]
              exact List.Perm.append_left _ (List.Perm.cons _ g5b)

/-! ## Deep copy -/

theorem clone_props (t : Tree K V) (c : Nat) :
    keys (clone t c).1 = keys t ∧
    h (clone t c).1 = h t ∧
    (heightOk t → heightOk (clone t c).1) ∧
    (balanced t → balanced (clone t c).1) ∧
    (toList (clone t c).1).length = (toList t).length ∧
    c ≤ (clone t c).2 ∧
    (∀ i ∈ ids (clone t c).1, c ≤ i ∧ i < (clone t c).2) ∧
    (ids (clone t c).1).Nodup := by
  induction t generalizing c with
  | leaf =>
      refine ⟨rfl, rfl, fun _ => trivial, fun _ => trivial, rfl, le_refl _, ?_, ?_⟩ <;>
        simp [clone]
  | node l id k v ht r ihl ihr =>
      obtain ⟨kl, hl2, okl, bll, lenl, lel, bndl, ndl⟩ := ihl (c + 1)
      obtain ⟨kr, hr2, okr, blr, lenr, ler, bndr, ndr⟩ := ihr (clone l (c + 1)).2
      rw [clone]
      dsimp only
      refine ⟨?_, rfl, ?_, ?_, ?_, by omega, ?_, ?_⟩
      · simp only [keys_node, kl, kr]
      · intro hok
        obtain ⟨hht, hokl, hokr⟩ := hok
        exact ⟨by rw [hl2, hr2]; exact hht, okl hokl, okr hokr⟩
      · intro hb
        obtain ⟨hb1, hb2, hbl, hbr⟩ := hb
        exact ⟨by rw [hl2, hr2]; exact hb1, by rw [hl2, hr2]; exact hb2,
          bll hbl, blr hbr⟩
      · simp only [toList_node, List.length_append, List.length_cons, lenl, lenr]
      · intro i hi
        simp only [ids_node, List.mem_append, List.mem_cons] at hi
        rcases hi with hi | hi | hi
        · have := bndl i hi
          omega
        · omega
        · have := bndr i hi
          omega
      · simp only [ids_node]
        rw [List.nodup_append, List.nodup_cons]
        refine ⟨ndl, ⟨?_, ndr⟩, ?_⟩
        · intro hc
          have := bndr c hc
          omega
        · intro x hx1 hx2
          have hb1 := bndl x hx1
          rcases List.mem_cons.1 hx2 with rfl | hx3
          · omega
          · have hb2 := bndr x hx3
            omega

/-! ## Invariant preservation by the public operations -/

theorem Inv_mapEmpty : Inv cmp (mapEmpty : MapState K V) :=
  ⟨sortedKeys_leaf cmp, trivial, trivial, rfl, by simp [mapEmpty], by simp [mapEmpty]⟩

theorem Inv_insert_absent {cmp : K → K → Bool} (sw : IsSWO cmp)
    {m : MapState K V} (k : K) (v0 : V) (hi : Inv cmp m)
    (hf : findNode cmp m.root k = none) :
    Inv cmp (⟨(insertNode cmp m.root (k, v0) m.nextId m.n).tree,
      (insertNode cmp m.root (k, v0) m.nextId m.n).n, m.nextId + 1⟩ : MapState K V) := by
  obtain ⟨hs, hok, hb, hcnt, hfr, hnd⟩ := hi
  obtain ⟨i1, i2, i3, i4, i5⟩ := insertNode_new sw v0 m.nextId m.n m.root k hs hf
  have hids : (ids (insertNode cmp m.root (k, v0) m.nextId m.n).tree).Perm
      (m.nextId :: ids m.root) := by
    have hp := i4.map (fun x : Nat × K × V => x.1)
    simpa [ids] using hp
  refine ⟨i5, ?_, ?_, ?_, ?_, ?_⟩
  · exact (insertNode_avl cmp m.root (k, v0) m.nextId m.n hok hb).1
  · exact (insertNode_avl cmp m.root (k, v0) m.nextId m.n hok hb).2.1
  · dsimp only
    rw [i3, i4.length_eq]
    simp [hcnt]
  · dsimp only
    intro i hi2
    rcases List.mem_cons.1 (hids.mem_iff.1 hi2) with rfl | hi3
    · omega
    · have := hfr i hi3
      omega
  · dsimp only
    rw [hids.nodup_iff]
    rw [List.nodup_cons]
    exact ⟨fun hc => absurd (hfr _ hc) (by omega), hnd⟩

theorem Inv_mapInsert {cmp : K → K → Bool} (sw : IsSWO cmp)
    {m : MapState K V} (k : K) (v0 : V) (hi : Inv cmp m) :
    Inv cmp (mapInsert cmp m (k, v0)).1 := by
  obtain ⟨hs, hok, hb, hcnt, hfr, hnd⟩ := hi
  rw [mapInsert]
  dsimp only
  cases hf : findNode cmp m.root k with
  | some s =>
      obtain ⟨i, k2, v2⟩ := s
      rw [insertNode_found cmp m.root k v0 m.nextId m.n hok hb hf]
      exact ⟨hs, hok, hb, hcnt, hfr, hnd⟩
  | none =>
      obtain ⟨i1, _, _, _, _⟩ := insertNode_new sw v0 m.nextId m.n m.root k hs hf
      rw [i1]
      exact Inv_insert_absent sw k v0 ⟨hs, hok, hb, hcnt, hfr, hnd⟩ hf

theorem Inv_erase_found {cmp : K → K → Bool} (sw : IsSWO cmp)
    {m : MapState K V} {tid : Nat} {tk : K} {tv : V} (hi : Inv cmp m)
    (hmem : (tid, tk, tv) ∈ toList m.root) :
    Inv cmp (⟨(eraseByNode cmp m.root tid tk m.n).tree,
      (eraseByNode cmp m.root tid tk m.n).n, m.nextId⟩ : MapState K V) := by
  obtain ⟨hs, hok, hb, hcnt, hfr, hnd⟩ := hi
  obtain ⟨g1, g2, ⟨pre, post, g3a, g3b⟩, g4, fid, pre2, post2, g5a, g5b⟩ :=
    eraseByNode_found sw m.root tid tk tv m.n hs hnd hmem
  have hlen : (toList (eraseByNode cmp m.root tid tk m.n).tree).length =
      (toList m.root).length - 1 := by
    have h2 : (keys (eraseByNode cmp m.root tid tk m.n).tree).length =
        (keys m.root).length - 1 := by
      rw [g3b.length_eq, g3a]
      simp only [List.length_append, List.length_cons]
      omega
    simpa only [keys, List.length_map] using h2
  have hsub : ∀ i ∈ ids (eraseByNode cmp m.root tid tk m.n).tree, i ∈ ids m.root := by
    intro i hi2
    have := g5b.mem_iff.1 hi2
    rw [g5a]
    rcases List.mem_append.1 this with hx | hx
    · exact List.mem_append.2 (Or.inl hx)
    · exact List.mem_append.2 (Or.inr (List.mem_cons_of_mem _ hx))
  refine ⟨g4, ?_, ?_, ?_, ?_, ?_⟩
  · exact (eraseByNode_avl cmp m.root tid tk m.n hok hb).1
  · exact (eraseByNode_avl cmp m.root tid tk m.n hok hb).2.1
  · dsimp only
    rw [g2, hlen, hcnt]
  · exact fun i hi2 => hfr i (hsub i hi2)
  · dsimp only
    rw [g5b.nodup_iff]
    rw [g5a] at hnd
    have hsl : (pre2 ++ post2).Sublist (pre2 ++ fid :: post2) :=
      List.Sublist.append_left (List.sublist_cons_self _ _) pre2
    exact hnd.sublist hsl

theorem Inv_applyOp {cmp : K → K → Bool} (sw : IsSWO cmp) (d0 : V)
    {m : MapState K V} (op : Op K V) (hi : Inv cmp m) :
    Inv cmp (applyOp cmp d0 m op) := by
  cases op with
  | ins k v => exact Inv_mapInsert sw k v hi
  | del k =>
      rw [applyOp]
      cases hf : findNode cmp m.root k with
      | none => exact hi
      | some s =>
          obtain ⟨i, k2, v2⟩ := s
          obtain ⟨hmem, _⟩ := findNode_some_mem cmp hf
          obtain ⟨g1, g2, _, _, _⟩ :=
            eraseByNode_found sw m.root i k2 v2 m.n hi.1 hi.2.2.2.2.2 hmem
          dsimp only
          rw [mapErase.eq_def]
          dsimp only
          rw [if_pos g1]
          dsimp only
          exact Inv_erase_found sw hi hmem
  | idx k =>
      rw [applyOp, mapBracket]
      cases hf : findNode cmp m.root k with
      | some s => exact hi
      | none =>
          dsimp only
          exact Inv_insert_absent sw k d0 hi hf
  | clr =>
      exact ⟨sortedKeys_leaf cmp, trivial, trivial, rfl, by simp [applyOp, mapClear],
        by simp [applyOp, mapClear]⟩
  | cpy =>
      obtain ⟨hs, hok, hb, hcnt, hfr, hnd⟩ := hi
      obtain ⟨kl, hl2, okl, bll, lenl, lel, bndl, ndl⟩ := clone_props m.root m.nextId
      refine ⟨?_, okl hok, bll hb, ?_, ?_, ndl⟩
      · rw [applyOp, mapCopy]
        dsimp only
        rw [sortedKeys, kl]
        exact hs
      · rw [applyOp, mapCopy]
        dsimp only
        omega
      · intro i hi2
        exact (bndl i hi2).2

theorem Inv_applyOps {cmp : K → K → Bool} (sw : IsSWO cmp) (d0 : V)
    (ops : List (Op K V)) : Inv cmp (applyOps cmp d0 ops) := by
  rw [applyOps]
  have hgen : ∀ (m : MapState K V), Inv cmp m →
      Inv cmp (ops.foldl (applyOp cmp d0) m) := by
    induction ops with
    | nil => exact fun m hm => hm
    | cons op rest ih =>
        intro m hm
        exact ih _ (Inv_applyOp sw d0 op hm)
  exact hgen mapEmpty (Inv_mapEmpty cmp)

/-! ## Paths, spines and the in-order sequence of positions -/

@[simp]
theorem subAt_nil (t : Tree K V) : subAt t [] = some t := by cases t <;> rfl

theorem subAt_consL {l r : Tree K V} {id : Nat} {k : K} {v : V} {ht : Nat}
    (p : Path) : subAt (Tree.node l id k v ht r) (Dir.L :: p) = subAt l p := rfl

theorem subAt_consR {l r : Tree K V} {id : Nat} {k : K} {v : V} {ht : Nat}
    (p : Path) : subAt (Tree.node l id k v ht r) (Dir.R :: p) = subAt r p := rfl

theorem contentAt_nil {l r : Tree K V} {id : Nat} {k : K} {v : V} {ht : Nat} :
    contentAt (Tree.node l id k v ht r) [] = some (id, k, v) := rfl

theorem contentAt_consL {l r : Tree K V} {id : Nat} {k : K} {v : V} {ht : Nat}
    (p : Path) :
    contentAt (Tree.node l id k v ht r) (Dir.L :: p) = contentAt l p := by
  rw [contentAt, contentAt, subAt_consL]

theorem contentAt_consR {l r : Tree K V} {id : Nat} {k : K} {v : V} {ht : Nat}
    (p : Path) :
    contentAt (Tree.node l id k v ht r) (Dir.R :: p) = contentAt r p := by
  rw [contentAt, contentAt, subAt_consR]

theorem mem_inorderPaths {t : Tree K V} {p : Path} :
    p ∈ inorderPaths t ↔ ∃ c, contentAt t p = some c := by
  induction t generalizing p with
  | leaf =>
      rw [inorderPaths]
      cases p <;> simp [contentAt, subAt]
  | node l id k v ht r ihl ihr =>
      cases p with
      | nil =>
          rw [contentAt_nil]
          simp [inorderPaths]
      | cons d p2 =>
          cases d with
          | L =>
              rw [contentAt_consL, ← ihl, inorderPaths]
              simp only [List.mem_append, List.mem_cons, List.mem_map]
              constructor
              · rintro (⟨x, hx, hinj⟩ | hfalse | ⟨x, hx, hinj⟩)
                · injection hinj with _ hinj2
                  rw [← hinj2]
                  exact hx
                · cases hfalse
                · cases hinj
              · intro hp2
                exact Or.inl ⟨p2, hp2, rfl⟩
          | R =>
              rw [contentAt_consR, ← ihr, inorderPaths]
              simp only [List.mem_append, List.mem_cons, List.mem_map]
              constructor
              · rintro (⟨x, hx, hinj⟩ | hfalse | ⟨x, hx, hinj⟩)
                · cases hinj
                · cases hfalse
                · injection hinj with _ hinj2
                  rw [← hinj2]
                  exact hx
              · intro hp2
                exact Or.inr (Or.inr ⟨p2, hp2, rfl⟩)

theorem inorderPaths_ne_nil (l : Tree K V) (id : Nat) (k : K) (v : V) (ht : Nat)
    (r : Tree K V) : inorderPaths (Tree.node l id k v ht r) ≠ [] := by
  rw [inorderPaths]
  simp

theorem minPathOpt_eq_head (t : Tree K V) :
    minPathOpt t = (inorderPaths t).head? := by
  induction t with
  | leaf => rfl
  | node l id k v ht r ihl _ =>
      cases l with
      | leaf => simp [minPathOpt, lspine, inorderPaths]
      | node a b c d e f =>
          have hstep : minPathOpt
              (Tree.node (Tree.node a b c d e f) id k v ht r) =
              some (Dir.L :: lspine (Tree.node a b c d e f)) := rfl
          rw [hstep, inorderPaths, List.head?_append, List.head?_map, ← ihl,
            minPathOpt]
          rfl

theorem inorderPaths_getLast :
    ∀ (r l : Tree K V) (id : Nat) (k : K) (v : V) (ht : Nat),
      (inorderPaths (Tree.node l id k v ht r)).getLast? =
        some (rspine (Tree.node l id k v ht r)) := by
  intro r
  induction r with
  | leaf =>
      intro l id k v ht
      have hr : rspine (Tree.node l id k v ht Tree.leaf) = [] := rfl
      rw [hr, inorderPaths]
      have he : inorderPaths (Tree.leaf : Tree K V) = [] := rfl
      rw [he]
      simp [List.getLast?_concat]
  | node a2 b2 c2 d2 e2 f2 _ ihf =>
      intro l id k v ht
      have hr : rspine (Tree.node l id k v ht (Tree.node a2 b2 c2 d2 e2 f2)) =
          Dir.R :: rspine (Tree.node a2 b2 c2 d2 e2 f2) := rfl
      rw [hr, inorderPaths, List.getLast?_append]
      have hB : (inorderPaths (Tree.node a2 b2 c2 d2 e2 f2)).getLast? =
          some (rspine (Tree.node a2 b2 c2 d2 e2 f2)) := ihf a2 b2 c2 d2 e2
      cases hP : inorderPaths (Tree.node a2 b2 c2 d2 e2 f2) with
      | nil => exact absurd hP (inorderPaths_ne_nil a2 b2 c2 d2 e2 f2)
      | cons y ys =>
          rw [hP] at hB
          have hmap : ([] :: (y :: ys).map (Dir.R :: ·)).getLast? =
              some (Dir.R :: rspine (Tree.node a2 b2 c2 d2 e2 f2)) := by
            rw [show ([] : Path) :: (y :: ys).map (Dir.R :: ·) =
                  [([] : Path)] ++ (y :: ys).map (Dir.R :: ·) from rfl,
              List.getLast?_append, List.getLast?_map, hB]
            rfl
          rw [hmap]
          rfl

theorem contentAt_rspine :
    ∀ (r l : Tree K V) (id : Nat) (k : K) (v : V) (ht : Nat),
      contentAt (Tree.node l id k v ht r)
        (rspine (Tree.node l id k v ht r)) =
        (toList (Tree.node l id k v ht r)).getLast? := by
  intro r
  induction r with
  | leaf =>
      intro l id k v ht
      have hr : rspine (Tree.node l id k v ht Tree.leaf) = [] := rfl
      rw [hr, contentAt_nil, toList_node]
      have he : toList (Tree.leaf : Tree K V) = [] := rfl
      rw [he]
      simp [List.getLast?_concat]
  | node a2 b2 c2 d2 e2 f2 _ ihf =>
      intro l id k v ht
      have hr : rspine (Tree.node l id k v ht (Tree.node a2 b2 c2 d2 e2 f2)) =
          Dir.R :: rspine (Tree.node a2 b2 c2 d2 e2 f2) := rfl
      rw [hr, contentAt_consR, ihf a2 b2 c2 d2 e2]
      cases hT : toList (Tree.node a2 b2 c2 d2 e2 f2) with
      | nil => exact absurd hT (toList_ne_nil a2 b2 c2 d2 e2 f2)
      | cons y ys =>
          rw [toList_node, hT]
          simp only [List.getLast?_append]
          cases hg : (y :: ys).getLast? with
          | none => simp at hg
          | some z => simp [hg]

theorem contentAt_lspine :
    ∀ (l r : Tree K V) (id : Nat) (k : K) (v : V) (ht : Nat),
      contentAt (Tree.node l id k v ht r)
        (lspine (Tree.node l id k v ht r)) =
        (toList (Tree.node l id k v ht r)).head? := by
  intro l
  induction l with
  | leaf =>
      intro r id k v ht
      have hl : lspine (Tree.node Tree.leaf id k v ht r) = [] := rfl
      rw [hl, contentAt_nil, toList_node]
      rfl
  | node a b c d e f iha _ =>
      intro r id k v ht
      have hl : lspine (Tree.node (Tree.node a b c d e f) id k v ht r) =
          Dir.L :: lspine (Tree.node a b c d e f) := rfl
      rw [hl, contentAt_consL, iha f b c d e]
      cases hT : toList (Tree.node a b c d e f) with
      | nil => exact absurd hT (toList_ne_nil a b c d e f)
      | cons y ys =>
          rw [toList_node, hT, List.head?_append]
          rfl

/-! ## The predecessor step on paths -/

theorem climbPredRev_append (xs : Path) (d : Dir) :
    climbPredRev (xs ++ [d]) =
      match climbPredRev xs with
      | some q => some (d :: q)
      | none => if d = Dir.R then some [] else none := by
  induction xs with
  | nil => cases d <;> rfl
  | cons x rest ih =>
      cases x with
      | L =>
          have e1 : climbPredRev (Dir.L :: (rest ++ [d])) =
              climbPredRev (rest ++ [d]) := rfl
          have e2 : climbPredRev (Dir.L :: rest) = climbPredRev rest := rfl
          rw [List.cons_append, e1, e2, ih]
      | R =>
          have e1 : climbPredRev (Dir.R :: (rest ++ [d])) =
              some (rest ++ [d]).reverse := rfl
          have e2 : climbPredRev (Dir.R :: rest) = some rest.reverse := rfl
          rw [List.cons_append, e1, e2, List.reverse_append]
          rfl

theorem climbPred_cons (d : Dir) (p : Path) :
    climbPred (d :: p) =
      match climbPred p with
      | some q => some (d :: q)
      | none => if d = Dir.R then some [] else none := by
  rw [climbPred, climbPred, List.reverse_cons, climbPredRev_append]

theorem lspine_allL (t : Tree K V) : ∀ d ∈ lspine t, d = Dir.L := by
  induction t with
  | leaf => simp [lspine]
  | node l id k v ht r ihl _ =>
      cases l with
      | leaf => simp [lspine]
      | node a b c d2 e f =>
          intro d3 hd
          have hl : lspine (Tree.node (Tree.node a b c d2 e f) id k v ht r) =
              Dir.L :: lspine (Tree.node a b c d2 e f) := rfl
          rw [hl] at hd
          rcases List.mem_cons.1 hd with rfl | hd2
          · rfl
          · exact ihl d3 hd2

theorem climbPredRev_of_allL (xs : Path) (hall : ∀ d ∈ xs, d = Dir.L) :
    climbPredRev xs = none := by
  induction xs with
  | nil => rfl
  | cons x rest ih =>
      have hx : x = Dir.L := hall x (List.mem_cons_self _ _)
      subst hx
      exact ih fun d hd => hall d (List.mem_cons_of_mem _ hd)

theorem climbPred_lspine (t : Tree K V) : climbPred (lspine t) = none := by
  rw [climbPred]
  refine climbPredRev_of_allL _ ?_
  intro d hd
  exact lspine_allL t d (List.mem_reverse.1 hd)

theorem predPath_consL (l r : Tree K V) (id : Nat) (k : K) (v : V) (ht : Nat)
    (p : Path) :
    predPath (Tree.node l id k v ht r) (Dir.L :: p) =
      (predPath l p).map (Dir.L :: ·) := by
  rw [predPath, predPath, subAt_consL]
  cases hsub : subAt l p with
  | none => rfl
  | some tt =>
      cases tt with
      | leaf => rfl
      | node tl tid tk tv tht tr =>
          cases tl with
          | leaf =>
              dsimp only
              rw [climbPred_cons]
              cases hc : climbPred p with
              | none => rfl
              | some q => rfl
          | node u1 u2 u3 u4 u5 u6 =>
              dsimp only
              rw [List.cons_append]
              rfl

theorem predPath_consR_some (l r : Tree K V) (id : Nat) (k : K) (v : V)
    (ht : Nat) (p q : Path) (hp : predPath r p = some q) :
    predPath (Tree.node l id k v ht r) (Dir.R :: p) = some (Dir.R :: q) := by
  rw [predPath, subAt_consR]
  rw [predPath] at hp
  cases hsub : subAt r p with
  | none => rw [hsub] at hp; cases hp
  | some tt =>
      rw [hsub] at hp
      cases tt with
      | leaf => cases hp
      | node tl tid tk tv tht tr =>
          cases tl with
          | leaf =>
              dsimp only at hp ⊢
              rw [climbPred_cons, hp]
          | node u1 u2 u3 u4 u5 u6 =>
              dsimp only at hp ⊢
              injection hp with hp2
              rw [← hp2, List.cons_append]

theorem predPath_consR_none (l r : Tree K V) (id : Nat) (k : K) (v : V)
    (ht : Nat) (p : Path) (hval : ∃ c, contentAt r p = some c)
    (hp : predPath r p = none) :
    predPath (Tree.node l id k v ht r) (Dir.R :: p) = some [] := by
  rw [predPath, subAt_consR]
  obtain ⟨c0, hc⟩ := hval
  rw [contentAt] at hc
  rw [predPath] at hp
  cases hsub : subAt r p with
  | none => rw [hsub] at hc; cases hc
  | some tt =>
      rw [hsub] at hc hp
      cases tt with
      | leaf => cases hc
      | node tl tid tk tv tht tr =>
          cases tl with
          | leaf =>
              dsimp only at hp ⊢
              rw [climbPred_cons, hp]
              rfl
          | node u1 u2 u3 u4 u5 u6 =>
              dsimp only at hp
              cases hp

theorem predPath_min (t : Tree K V) (p : Path) (hp : minPathOpt t = some p) :
    predPath t p = none := by
  induction t generalizing p with
  | leaf => cases hp
  | node l id k v ht r ihl _ =>
      cases l with
      | leaf =>
          have hpl : p = [] := by
            have : minPathOpt (Tree.node Tree.leaf id k v ht r) =
                some ([] : Path) := rfl
            rw [this] at hp
            injection hp with hp2
            rw [hp2]
          rw [hpl, predPath]
          rfl
      | node a b c d2 e f =>
          have hstep : minPathOpt
              (Tree.node (Tree.node a b c d2 e f) id k v ht r) =
              some (Dir.L :: lspine (Tree.node a b c d2 e f)) := rfl
          rw [hstep] at hp
          injection hp with hp2
          rw [← hp2, predPath_consL,
            ihl (lspine (Tree.node a b c d2 e f)) rfl]
          rfl

set_option maxHeartbeats 1000000 in
theorem predPath_adjacent (t : Tree K V) :
    ∀ (i : Nat) (p : Path),
      (inorderPaths t)[i + 1]? = some p →
      ∃ q, (inorderPaths t)[i]? = some q ∧ predPath t p = some q := by
  induction t with
  | leaf =>
      intro i p hp
      rw [inorderPaths] at hp
      simp at hp
  | node l id k v ht r ihl ihr =>
      intro i p hp
      rw [inorderPaths] at hp
      have hAlen : ((inorderPaths l).map (Dir.L :: ·)).length =
          (inorderPaths l).length := List.length_map _ _
      rcases Nat.lt_trichotomy (i + 1) ((inorderPaths l).length) with hlt | heq | hgt
      · -- inside the left block
        rw [List.getElem?_append_left (by omega), List.getElem?_map] at hp
        cases hgl : (inorderPaths l)[i + 1]? with
        | none => rw [hgl] at hp; cases hp
        | some p2 =>
            rw [hgl] at hp
            injection hp with hp2
            obtain ⟨q2, hq2, hpred⟩ := ihl i p2 hgl
            refine ⟨Dir.L :: q2, ?_, ?_⟩
            · rw [inorderPaths, List.getElem?_append_left (by omega),
                List.getElem?_map, hq2]
              rfl
            · rw [← hp2, predPath_consL, hpred]
              rfl
      · -- p is the root position
        rw [List.getElem?_append_right (by omega)] at hp
        have hidx : i + 1 - ((inorderPaths l).map (Dir.L :: ·)).length = 0 := by
          omega
        rw [hidx] at hp
        have hp0 : p = [] := by
          rw [List.getElem?_cons, if_pos rfl] at hp
          injection hp with hp2
          exact hp2.symm
        cases l with
        | leaf => rw [inorderPaths] at heq; simp at heq
        | node a b c d2 e f =>
            refine ⟨Dir.L :: rspine (Tree.node a b c d2 e f), ?_, ?_⟩
            · rw [inorderPaths, List.getElem?_append_left (by omega),
                List.getElem?_map]
              have hgl : (inorderPaths (Tree.node a b c d2 e f)).getLast? =
                  some (rspine (Tree.node a b c d2 e f)) :=
                inorderPaths_getLast f a b c d2 e
              rw [List.getLast?_eq_getElem?] at hgl
              have hieq : i = (inorderPaths (Tree.node a b c d2 e f)).length - 1 := by
                omega
              rw [hieq, hgl]
              rfl
            · rw [hp0, predPath]
              rfl
      · -- inside the right block
        rw [List.getElem?_append_right (by omega)] at hp
        rw [List.getElem?_cons] at hp
        rw [if_neg (by omega)] at hp
        rw [List.getElem?_map] at hp
        cases hgr : (inorderPaths r)[i + 1 -
            ((inorderPaths l).map (Dir.L :: ·)).length - 1]? with
        | none => rw [hgr] at hp; cases hp
        | some p2 =>
            rw [hgr] at hp
            injection hp with hp2
            by_cases hj : i + 1 - ((inorderPaths l).map (Dir.L :: ·)).length - 1 = 0
            · -- p2 is the minimum of the right subtree
              rw [hj] at hgr
              have hmin : minPathOpt r = some p2 := by
                rw [minPathOpt_eq_head]
                rw [List.head?_eq_getElem?]
                exact hgr
              have hvalid : ∃ c, contentAt r p2 = some c := by
                rw [← mem_inorderPaths]
                have := List.getElem?_eq_some.1 hgr
                obtain ⟨hlt2, hget⟩ := this
                rw [← hget]
                exact List.getElem_mem _
              refine ⟨[], ?_, ?_⟩
              · rw [inorderPaths, List.getElem?_append_right (by omega)]
                have hidx : i - ((inorderPaths l).map (Dir.L :: ·)).length = 0 := by
                  omega
                rw [hidx, List.getElem?_cons, if_pos rfl]
              · rw [← hp2]
                exact predPath_consR_none l r id k v ht p2 hvalid
                  (predPath_min r p2 hmin)
            · -- strictly inside the right block
              have hidx2 : i + 1 - ((inorderPaths l).map (Dir.L :: ·)).length - 1 =
                  (i - ((inorderPaths l).map (Dir.L :: ·)).length - 1) + 1 := by
                omega
              rw [hidx2] at hgr
              obtain ⟨q2, hq2, hpred⟩ :=
                ihr (i - ((inorderPaths l).map (Dir.L :: ·)).length - 1) p2 hgr
              refine ⟨Dir.R :: q2, ?_, ?_⟩
              · rw [inorderPaths, List.getElem?_append_right (by omega),
                  List.getElem?_cons, if_neg (by omega), List.getElem?_map]
                have hidx3 : i - ((inorderPaths l).map (Dir.L :: ·)).length - 1 =
                    i - ((inorderPaths l).map (Dir.L :: ·)).length - 1 := rfl
                rw [show i - ((inorderPaths l).map (Dir.L :: ·)).length - 1 =
                    i - ((inorderPaths l).map (Dir.L :: ·)).length - 1 from rfl] at hq2
                rw [hq2]
                rfl
              · rw [← hp2]
                exact predPath_consR_some l r id k v ht p2 q2 hpred

/-! ## Erasing a node with two children: what is freed and what is kept -/

theorem toList_subAt :
    ∀ (p : Path) (t u : Tree K V), subAt t p = some u →
      ∃ pre post, toList t = pre ++ toList u ++ post := by
  intro p
  induction p with
  | nil =>
      intro t u hs
      rw [subAt_nil] at hs
      injection hs with hs2
      exact ⟨[], [], by simp [hs2]⟩
  | cons d p2 ih =>
      intro t u hs
      cases t with
      | leaf => cases hs
      | node l id k v ht r =>
          cases d with
          | L =>
              rw [subAt_consL] at hs
              obtain ⟨pre, post, hpp⟩ := ih l u hs
              exact ⟨pre, post ++ (id, k, v) :: toList r,
                by rw [toList_node, hpp]; simp⟩
          | R =>
              rw [subAt_consR] at hs
              obtain ⟨pre, post, hpp⟩ := ih r u hs
              exact ⟨toList l ++ (id, k, v) :: pre, post,
                by rw [toList_node, hpp]; simp⟩

theorem mem_toList_subAt {t u : Tree K V} {p : Path} {l0 r0 : Tree K V}
    {tid : Nat} {tk : K} {tv : V} {ht0 : Nat}
    (hs : subAt t p = some u) (hu : u = Tree.node l0 tid tk tv ht0 r0) :
    (tid, tk, tv) ∈ toList t := by
  obtain ⟨pre, post, hpp⟩ := toList_subAt p t u hs
  rw [hpp, hu]
  simp [toList]

set_option maxHeartbeats 1000000 in
theorem eraseByNode_min {cmp : K → K → Bool} (sw : IsSWO cmp) (t : Tree K V)
    (sid : Nat) (sk : K) (sv : V) (n : Nat) :
    sortedKeys cmp t → (ids t).Nodup → minNode t = some (sid, sk, sv) →
    (eraseByNode cmp t sid sk n).erased = true ∧
    (eraseByNode cmp t sid sk n).n = n - 1 ∧
    (∃ krest, keys t = sk :: krest ∧
      (keys (eraseByNode cmp t sid sk n).tree).Perm krest) ∧
    (∃ pre2 post2, ids t = pre2 ++ sid :: post2 ∧
      (ids (eraseByNode cmp t sid sk n).tree).Perm (pre2 ++ post2)) := by
  induction t generalizing n with
  | leaf => intro _ _ hmin; cases hmin
  | node l id k v ht r ihl _ =>
      intro hs hnd hmin
      obtain ⟨hsl, hsr, hlk, hkr, hcross⟩ := (sortedKeys_node_iff cmp).1 hs
      simp only [ids_node] at hnd
      rw [List.nodup_append] at hnd
      obtain ⟨ndl, ndcr, hdisj⟩ := hnd
      rw [List.nodup_cons] at ndcr
      obtain ⟨hidr, ndr⟩ := ndcr
      have hidl : id ∉ ids l := fun hmm => hdisj hmm (List.mem_cons_self _ _)
      cases l with
      | leaf =>
          have hm0 : minNode (Tree.node Tree.leaf id k v ht r) =
              some (id, k, v) := rfl
          rw [hm0] at hmin
          obtain ⟨he1, he2, he3⟩ : id = sid ∧ k = sk ∧ v = sv := by
            injection hmin with hx
            injection hx with hx1 hx2
            injection hx2 with hx2 hx3
            exact ⟨hx1, hx2, hx3⟩
          subst he1
          subst he2
          subst he3
          rw [eraseByNode.eq_def]
          dsimp only
          rw [if_pos rfl]
          dsimp only
          refine ⟨rfl, rfl, ⟨keys r, by simp, by simp⟩,
            ⟨[], ids r, by simp, by simp⟩⟩
      | node a b c d2 e f =>
          have hm0 : minNode (Tree.node (Tree.node a b c d2 e f) id k v ht r) =
              minNode (Tree.node a b c d2 e f) := rfl
          rw [hm0] at hmin
          have hhead : (toList (Tree.node a b c d2 e f)).head? =
              some (sid, sk, sv) := by rw [← minNode_eq_head]; exact hmin
          have hsmem : (sid, sk, sv) ∈ toList (Tree.node a b c d2 e f) := by
            cases hT : toList (Tree.node a b c d2 e f) with
            | nil => exact absurd hT (toList_ne_nil a b c d2 e f)
            | cons y ys =>
                rw [hT] at hhead
                injection hhead with hhd
                rw [hhd]
                exact List.mem_cons_self _ _
          have hsid : sid ∈ ids (Tree.node a b c d2 e f) :=
            mem_ids_of_mem_toList hsmem
          have hskl : sk ∈ keys (Tree.node a b c d2 e f) :=
            mem_keys_of_mem_toList hsmem
          have hne : id ≠ sid := fun hEq => hidl (hEq ▸ hsid)
          have hcm : cmp sk k = true := hlk sk hskl
          obtain ⟨g1, g2, ⟨krest, g3a, g3b⟩, pre2, post2, g5a, g5b⟩ :=
            ihl n hsl ndl hmin
          rw [eraseByNode.eq_def]
          dsimp only
          rw [if_neg hne, if_pos hcm]
          dsimp only
          refine ⟨g1, g2, ?_, ?_⟩
          · refine ⟨krest ++ k :: keys r, ?_, ?_⟩
            · rw [keys_node, g3a, List.cons_append]
            · rw [keys_rebalance, keys_node]
              exact g3b.append_right _
          · refine ⟨pre2, post2 ++ id :: ids r, ?_, ?_⟩
            · rw [ids_node, g5a, List.append_assoc, List.cons_append]
            · rw [ids_rebalance, ids_node, ← List.append_assoc]
              exact g5b.append_right _

set_option maxHeartbeats 1000000 in
theorem eraseByNode_twoChild {cmp : K → K → Bool} (sw : IsSWO cmp) :
    ∀ (p : Path) (t : Tree K V) (l0 r0 : Tree K V) (tid : Nat) (tk : K) (tv : V)
      (ht0 n : Nat),
      sortedKeys cmp t → (ids t).Nodup →
      subAt t p = some (Tree.node l0 tid tk tv ht0 r0) →
      l0 ≠ Tree.leaf → r0 ≠ Tree.leaf →
      ∃ sid sk sv, minNode r0 = some (sid, sk, sv) ∧
        (eraseByNode cmp t tid tk n).erased = true ∧
        (eraseByNode cmp t tid tk n).n = n - 1 ∧
        sid ≠ tid ∧
        (tid, sk, sv) ∈ toList (eraseByNode cmp t tid tk n).tree ∧
        (∃ pre2 post2, ids t = pre2 ++ sid :: post2 ∧
          (ids (eraseByNode cmp t tid tk n).tree).Perm (pre2 ++ post2)) ∧
        (∃ pre post, keys t = pre ++ tk :: post ∧
          (keys (eraseByNode cmp t tid tk n).tree).Perm (pre ++ post)) := by
  intro p
  induction p with
  | nil =>
      intro t l0 r0 tid tk tv ht0 n hs hnd hsub hl0 hr0
      rw [subAt_nil] at hsub
      injection hsub with hsub2
      subst hsub2
      obtain ⟨hsl, hsr, hlk, hkr, hcross⟩ := (sortedKeys_node_iff cmp).1 hs
      simp only [ids_node] at hnd
      rw [List.nodup_append] at hnd
      obtain ⟨ndl, ndcr, hdisj⟩ := hnd
      rw [List.nodup_cons] at ndcr
      obtain ⟨hidr, ndr⟩ := ndcr
      cases l0 with
      | leaf => exact absurd rfl hl0
      | node a b c d2 e f =>
          cases r0 with
          | leaf => exact absurd rfl hr0
          | node a2 b2 c2 d3 e2 f2 =>
              obtain ⟨⟨sid, sk, sv⟩, hmin⟩ := minNode_isSome a2 b2 c2 d3 e2 f2
              obtain ⟨g1, g2, ⟨krest, g3a, g3b⟩, pre2, post2, g5a, g5b⟩ :=
                eraseByNode_min sw (Tree.node a2 b2 c2 d3 e2 f2) sid sk sv n
                  hsr ndr hmin
              have hsid : sid ∈ ids (Tree.node a2 b2 c2 d3 e2 f2) := by
                rw [g5a]
                simp
              have hne : sid ≠ tid := fun hEq => hidr (hEq ▸ hsid)
              refine ⟨sid, sk, sv, hmin, ?_⟩
              rw [eraseByNode.eq_def]
              dsimp only
              rw [if_pos rfl]
              try dsimp only
              rw [hmin]
              try dsimp only
              obtain ⟨w, hw⟩ :
                  ∃ w, eraseByNode cmp (Tree.node a2 b2 c2 d3 e2 f2) sid sk n = w :=
                ⟨_, rfl⟩
              rw [hw] at g1 g2 g3b g5b ⊢
              refine ⟨rfl, g2, hne, ?_, ?_, ?_⟩
              · rw [toList_rebalance, toList_node]
                simp
              · refine ⟨ids (Tree.node a b c d2 e f) ++ tid :: pre2, post2, ?_, ?_⟩
                · rw [ids_node, g5a, List.append_assoc, List.cons_append]
                · rw [ids_rebalance, ids_node, List.append_assoc, List.cons_append]
                  exact List.Perm.append_left _ (List.Perm.cons _ g5b)
              · refine ⟨keys (Tree.node a b c d2 e f),
                  keys (Tree.node a2 b2 c2 d3 e2 f2), keys_node, ?_⟩
                rw [keys_rebalance, keys_node]
                refine List.Perm.append_left _ ?_
                refine (List.Perm.cons _ g3b).trans ?_
                rw [g3a]
  | cons d p2 ih =>
      intro t l0 r0 tid tk tv ht0 n hs hnd hsub hl0 hr0
      cases t with
      | leaf => cases hsub
      | node l id k v ht r =>
          obtain ⟨hsl, hsr, hlk, hkr, hcross⟩ := (sortedKeys_node_iff cmp).1 hs
          simp only [ids_node] at hnd
          rw [List.nodup_append] at hnd
          obtain ⟨ndl, ndcr, hdisj⟩ := hnd
          rw [List.nodup_cons] at ndcr
          obtain ⟨hidr, ndr⟩ := ndcr
          have hidl : id ∉ ids l := fun hmm => hdisj hmm (List.mem_cons_self _ _)
          cases d with
          | L =>
              rw [subAt_consL] at hsub
              have hm : (tid, tk, tv) ∈ toList l := mem_toList_subAt hsub rfl
              have htid : tid ∈ ids l := mem_ids_of_mem_toList hm
              have htk : tk ∈ keys l := mem_keys_of_mem_toList hm
              have hne : id ≠ tid := fun hEq => hidl (hEq ▸ htid)
              obtain ⟨sid, sk, sv, hmin, g1, g2, gne, gmem,
                ⟨pre2, post2, g5a, g5b⟩, pre, post, g3a, g3b⟩ :=
                ih l l0 r0 tid tk tv ht0 n hsl ndl hsub hl0 hr0
              refine ⟨sid, sk, sv, hmin, ?_⟩
              rw [eraseByNode.eq_def]
              dsimp only
              rw [if_neg hne, if_pos (hlk tk htk)]
              dsimp only
              refine ⟨g1, g2, gne, ?_, ?_, ?_⟩
              · rw [toList_rebalance, toList_node]
                simp [gmem]
              · refine ⟨pre2, post2 ++ id :: ids r, ?_, ?_⟩
                · rw [ids_node, g5a, List.append_assoc, List.cons_append]
                · rw [ids_rebalance, ids_node, ← List.append_assoc]
                  exact g5b.append_right _
              · refine ⟨pre, post ++ k :: keys r, ?_, ?_⟩
                · rw [keys_node, g3a, List.append_assoc, List.cons_append]
                · rw [keys_rebalance, keys_node, ← List.append_assoc]
                  exact g3b.append_right _
          | R =>
              rw [subAt_consR] at hsub
              have hm : (tid, tk, tv) ∈ toList r := mem_toList_subAt hsub rfl
              have htid : tid ∈ ids r := mem_ids_of_mem_toList hm
              have htk : tk ∈ keys r := mem_keys_of_mem_toList hm
              have hne : id ≠ tid := fun hEq => hidr (hEq ▸ htid)
              have hcm : cmp tk k = false := sw.asym (hkr tk htk)
              obtain ⟨sid, sk, sv, hmin, g1, g2, gne, gmem,
                ⟨pre2, post2, g5a, g5b⟩, pre, post, g3a, g3b⟩ :=
                ih r l0 r0 tid tk tv ht0 n hsr ndr hsub hl0 hr0
              refine ⟨sid, sk, sv, hmin, ?_⟩
              rw [eraseByNode.eq_def]
              dsimp only
              rw [if_neg hne, if_neg (by rw [hcm]; exact Bool.false_ne_true)]
              dsimp only
              refine ⟨g1, g2, gne, ?_, ?_, ?_⟩
              · rw [toList_rebalance, toList_node]
                simp [gmem]
              · refine ⟨ids l ++ id :: pre2, post2, ?_, ?_⟩
                · rw [ids_node, g5a, List.append_assoc, List.cons_append]
                · rw [ids_rebalance, ids_node, List.append_assoc, List.cons_append]
                  exact List.Perm.append_left _ (List.Perm.cons _ g5b)
              · refine ⟨keys l ++ k :: pre, post, ?_, ?_⟩
                · rw [keys_node, g3a, List.append_assoc, List.cons_append]
                · rw [keys_rebalance, keys_node, List.append_assoc, List.cons_append]
                  exact List.Perm.append_left _ (List.Perm.cons _ g3b)

/-! ## Remaining auxiliary lemmas -/

theorem mem_keys_exists {t : Tree K V} {x : K} :
    x ∈ keys t ↔ ∃ i v2, (i, x, v2) ∈ toList t := by
  rw [keys]
  simp only [List.mem_map]
  constructor
  · rintro ⟨⟨i, k2, v2⟩, hm, hx⟩
    dsimp only at hx
    subst hx
    exact ⟨i, v2, hm⟩
  · rintro ⟨i, v2, hm⟩
    exact ⟨(i, x, v2), hm, rfl⟩

theorem toList_eq_nil {t : Tree K V} : toList t = [] ↔ t = Tree.leaf := by
  cases t with
  | leaf => simp [toList]
  | node l id k v ht r => simp [toList]

theorem mem_of_getLast?_eq {l : List K} {x : K} (hl : l.getLast? = some x) :
    x ∈ l := by
  induction l with
  | nil => cases hl
  | cons a rest ih =>
      cases rest with
      | nil =>
          injection hl with hl2
          rw [← hl2]
          exact List.mem_cons_self _ _
      | cons b bs =>
          have hcc : ((a :: b :: bs : List K)).getLast? = (b :: bs).getLast? := rfl
          rw [hcc] at hl
          exact List.mem_cons_of_mem _ (ih hl)

theorem pairwise_getLast {R : K → K → Prop} {l : List K} (hp : l.Pairwise R)
    {x : K} (hl : l.getLast? = some x) : ∀ y ∈ l, y = x ∨ R y x := by
  induction l with
  | nil => cases hl
  | cons a rest ih =>
      rw [List.pairwise_cons] at hp
      obtain ⟨ha, hrest⟩ := hp
      cases rest with
      | nil =>
          injection hl with hl2
          intro y hy
          rcases List.mem_cons.1 hy with rfl | hy2
          · exact Or.inl hl2
          · cases hy2
      | cons b bs =>
          have hcc : ((a :: b :: bs : List K)).getLast? = (b :: bs).getLast? := rfl
          rw [hcc] at hl
          intro y hy
          rcases List.mem_cons.1 hy with rfl | hy2
          · exact Or.inr (ha x (mem_of_getLast?_eq hl))
          · exact ih hrest hl y hy2

theorem pairwise_head {R : K → K → Prop} {x : K} {xs : List K}
    (hp : (x :: xs).Pairwise R) : ∀ y ∈ xs, R x y := by
  rw [List.pairwise_cons] at hp
  exact hp.1

theorem find?_id_of_mem {xs : List (Nat × K × V)} {i : Nat} {k : K} {v : V}
    (hmem : (i, k, v) ∈ xs) (hnd : (xs.map (fun x => x.1)).Nodup) :
    xs.find? (fun x => x.1 = i) = some (i, k, v) := by
  induction xs with
  | nil => cases hmem
  | cons y ys ih =>
      rw [List.map_cons, List.nodup_cons] at hnd
      obtain ⟨hy, hnd2⟩ := hnd
      rcases List.mem_cons.1 hmem with rfl | hm2
      · rw [List.find?_cons_of_pos]
        simp
      · have hne : y.1 ≠ i := by
          intro hEq
          exact hy (by
            rw [hEq]
            exact List.mem_map_of_mem _ hm2)
        rw [List.find?_cons_of_neg]
        · exact ih hm2 hnd2
        · simp [hne]

theorem lookupId_of_mem {t : Tree K V} {i : Nat} {k : K} {v : V}
    (hmem : (i, k, v) ∈ toList t) (hnd : (ids t).Nodup) :
    lookupId t i = some (k, v) := by
  rw [lookupId, find?_id_of_mem hmem hnd]
  rfl

/-! ## True heights versus cached heights -/

theorem h_eq_realH {t : Tree K V} (hok : heightOk t) : h t = realH t := by
  induction t with
  | leaf => rfl
  | node l id k v ht r ihl ihr =>
      obtain ⟨hht, hokl, hokr⟩ := hok
      rw [h_node, realH, hht, max2_eq_max, ihl hokl, ihr hokr]

theorem htCacheOk_of_heightOk {t : Tree K V} (hok : heightOk t) : htCacheOk t := by
  induction t with
  | leaf => trivial
  | node l id k v ht r ihl ihr =>
      obtain ⟨hht, hokl, hokr⟩ := hok
      refine ⟨?_, ihl hokl, ihr hokr⟩
      rw [hht, max2_eq_max, h_eq_realH hokl, h_eq_realH hokr]

theorem realBalanced_of {t : Tree K V} (hok : heightOk t) (hb : balanced t) :
    realBalanced t := by
  induction t with
  | leaf => trivial
  | node l id k v ht r ihl ihr =>
      obtain ⟨hht, hokl, hokr⟩ := hok
      obtain ⟨hb1, hb2, hbl, hbr⟩ := hb
      rw [h_eq_realH hokl, h_eq_realH hokr] at hb1 hb2
      exact ⟨hb1, hb2, ihl hokl hbl, ihr hokr hbr⟩

/-! ## Balance preservation needs no assumption on the comparator -/

theorem avl_applyOp (m : MapState K V) (op : Op K V)
    (hok : heightOk m.root) (hb : balanced m.root) :
    heightOk (applyOp cmp d0 m op).root ∧ balanced (applyOp cmp d0 m op).root := by
  cases op with
  | ins k v =>
      rw [applyOp, mapInsert]
      exact ⟨(insertNode_avl cmp m.root (k, v) m.nextId m.n hok hb).1,
        (insertNode_avl cmp m.root (k, v) m.nextId m.n hok hb).2.1⟩
  | del k =>
      rw [applyOp]
      cases hf : findNode cmp m.root k with
      | none => exact ⟨hok, hb⟩
      | some s =>
          obtain ⟨i, k2, v2⟩ := s
          dsimp only
          rw [mapErase.eq_def]
          dsimp only
          cases hflag : (eraseByNode cmp m.root i k2 m.n).erased with
          | false =>
              rw [if_neg Bool.false_ne_true]
              exact ⟨hok, hb⟩
          | true =>
              rw [if_pos rfl]
              dsimp only
              exact ⟨(eraseByNode_avl cmp m.root i k2 m.n hok hb).1,
                (eraseByNode_avl cmp m.root i k2 m.n hok hb).2.1⟩
  | idx k =>
      rw [applyOp, mapBracket]
      cases hf : findNode cmp m.root k with
      | some s => exact ⟨hok, hb⟩
      | none =>
          dsimp only
          exact ⟨(insertNode_avl cmp m.root (k, d0) m.nextId m.n hok hb).1,
            (insertNode_avl cmp m.root (k, d0) m.nextId m.n hok hb).2.1⟩
  | clr => exact ⟨trivial, trivial⟩
  | cpy =>
      obtain ⟨_, _, okl, bll, _, _, _, _⟩ := clone_props m.root m.nextId
      exact ⟨okl hok, bll hb⟩

theorem avl_applyOps (ops : List (Op K V)) :
    heightOk (applyOps cmp d0 ops).root ∧ balanced (applyOps cmp d0 ops).root := by
  rw [applyOps]
  have hgen : ∀ (m : MapState K V), heightOk m.root → balanced m.root →
      heightOk (ops.foldl (applyOp cmp d0) m).root ∧
      balanced (ops.foldl (applyOp cmp d0) m).root := by
    induction ops with
    | nil => exact fun m h1 h2 => ⟨h1, h2⟩
    | cons op rest ih =>
        intro m h1 h2
        obtain ⟨h3, h4⟩ := avl_applyOp cmp d0 m op h1 h2
        exact ih _ h3 h4
  exact hgen mapEmpty trivial trivial

/-! # The claims -/

/-- C1: for every map and every erase of a position whose node has two
children, the operation locates the in-order successor (the leftmost node of
the right subtree), copies the successor's key and value into the target node
in place (the target node's address survives, now holding the successor's
payload), and removes the successor node from the right subtree: the address
that disappears from the tree is the successor's, not the target's, the
erased key is the target's, and the count decreases by exactly one. -/
theorem c1_erase_two_children {K V : Type} {cmp : K → K → Bool} (sw : IsSWO cmp)
    (m : MapState K V) (p : Path) (l0 r0 : Tree K V) (tid : Nat) (tk : K)
    (tv : V) (ht0 : Nat) (hs : sortedKeys cmp m.root)
    (hnd : (ids m.root).Nodup)
    (hsub : subAt m.root p = some (Tree.node l0 tid tk tv ht0 r0))
    (hl0 : l0 ≠ Tree.leaf) (hr0 : r0 ≠ Tree.leaf) :
    ∃ sid sk sv m2, minNode r0 = some (sid, sk, sv) ∧
      mapErase cmp m (some (tid, tk)) = Except.ok m2 ∧
      m2.n = m.n - 1 ∧ sid ≠ tid ∧
      (tid, sk, sv) ∈ toList m2.root ∧
      (∃ pre2 post2, ids m.root = pre2 ++ sid :: post2 ∧
        (ids m2.root).Perm (pre2 ++ post2)) ∧
      (∃ pre post, keys m.root = pre ++ tk :: post ∧
        (keys m2.root).Perm (pre ++ post)) := by
  obtain ⟨sid, sk, sv, hmin, g1, g2, gne, gmem, gids, gkeys⟩ :=
    eraseByNode_twoChild sw p m.root l0 r0 tid tk tv ht0 m.n hs hnd hsub hl0 hr0
  refine ⟨sid, sk, sv,
    ⟨(eraseByNode cmp m.root tid tk m.n).tree,
     (eraseByNode cmp m.root tid tk m.n).n, m.nextId⟩,
    hmin, ?_, g2, gne, gmem, gids, gkeys⟩
  rw [mapErase.eq_def]
  dsimp only
  rw [if_pos g1]

/-- C2: after every sequence of public operations (insert, erase via a found
position, indexed access, clear, deep copy) starting from the empty map, every
node's two subtrees have true heights differing by at most one, and every
node's cached height field equals one plus the maximum of its children's true
heights. -/
theorem c2_balance_invariant {K V : Type} (cmp : K → K → Bool) (d0 : V)
    (ops : List (Op K V)) :
    realBalanced (applyOps cmp d0 ops).root ∧
    htCacheOk (applyOps cmp d0 ops).root := by
  obtain ⟨h1, h2⟩ := avl_applyOps cmp d0 ops
  exact ⟨realBalanced_of h1 h2, htCacheOk_of_heightOk h1⟩

/-- C3: for every sequence of public operations starting from the empty map,
under a strict-weak-order comparator, the in-order traversal of the resulting
tree yields keys in strictly ascending comparator order, and no two nodes hold
equivalent keys. -/
theorem c3_order_invariant {K V : Type} {cmp : K → K → Bool} (sw : IsSWO cmp)
    (d0 : V) (ops : List (Op K V)) :
    (keys (applyOps cmp d0 ops).root).Pairwise (fun a b => cmp a b = true) ∧
    (keys (applyOps cmp d0 ops).root).Pairwise
      (fun a b => ¬ equivK cmp a b) := by
  have hi := Inv_applyOps sw d0 ops
  refine ⟨hi.1, hi.1.imp ?_⟩
  intro a b hab
  exact sw.not_equiv_of_lt hab

/-- C4: inserting a key equivalent to one already present returns the pair
(position of the existing element, false) and leaves the map entirely
unchanged: same root tree (hence shape, keys and values), same size, same
address supply; in particular the stored value is not overwritten. -/
theorem c4_duplicate_insert {K V : Type} {cmp : K → K → Bool} (sw : IsSWO cmp)
    (m : MapState K V) (k : K) (v0 : V) (hs : sortedKeys cmp m.root)
    (hok : heightOk m.root) (hb : balanced m.root)
    (hmem : ∃ x ∈ keys m.root, equivK cmp x k) :
    ∃ i k2 v2, (i, k2, v2) ∈ toList m.root ∧ equivK cmp k2 k ∧
      findNode cmp m.root k = some (i, k2, v2) ∧
      mapInsert cmp m (k, v0) = (m, false, i) := by
  obtain ⟨x, hx, he⟩ := hmem
  obtain ⟨i, v2, hm⟩ := mem_keys_exists.1 hx
  have hf := findNode_eq_some sw hs hm he
  refine ⟨i, x, v2, hm, he, hf, ?_⟩
  rw [mapInsert]
  rw [insertNode_found cmp m.root k v0 m.nextId m.n hok hb hf]
  rfl

/-- C5 (counterexample to the claim as stated): inserting a pair whose key is
already present does not overwrite the stored value, so an immediate find
returns the old value, not the inserted one: after inserting (1, 10) and then
(1, 20) from the empty map, find 1 yields the node with value 10, and
10 is not 20. -/
theorem c5_counterexample :
    mapFind natLt
        (mapInsert natLt
          (mapInsert natLt (mapEmpty : MapState Nat Nat) (1, 10)).1 (1, 20)).1
        1 = some (0, 1, 10) ∧ (10 : Nat) ≠ 20 := by
  decide

/-- C5 (amended): for every map containing no key equivalent to the inserted
one, inserting the pair then finding the key returns a position holding the
inserted value; erasing that position and finding again returns past-the-end
(no node found). -/
theorem c5_round_trip {K V : Type} {cmp : K → K → Bool} (sw : IsSWO cmp)
    (m : MapState K V) (k : K) (v0 : V) (hi : Inv cmp m)
    (habs : ∀ x ∈ keys m.root, ¬ equivK cmp x k) :
    ∃ m2 m3 : MapState K V,
      mapInsert cmp m (k, v0) = (m2, true, m.nextId) ∧
      mapFind cmp m2 k = some (m.nextId, k, v0) ∧
      mapErase cmp m2 (some (m.nextId, k)) = Except.ok m3 ∧
      mapFind cmp m3 k = none := by
  obtain ⟨hs, hok, hb, hcnt, hfr, hnd⟩ := hi
  have hf : findNode cmp m.root k = none := findNode_eq_none sw hs habs
  obtain ⟨i1, i2, i3, i4, i5⟩ := insertNode_new sw v0 m.nextId m.n m.root k hs hf
  have hi2 : Inv cmp (⟨(insertNode cmp m.root (k, v0) m.nextId m.n).tree,
      (insertNode cmp m.root (k, v0) m.nextId m.n).n, m.nextId + 1⟩ :
        MapState K V) :=
    Inv_insert_absent sw k v0 ⟨hs, hok, hb, hcnt, hfr, hnd⟩ hf
  have hmem2 : (m.nextId, k, v0) ∈
      toList (insertNode cmp m.root (k, v0) m.nextId m.n).tree :=
    i4.mem_iff.2 (List.mem_cons_self _ _)
  obtain ⟨g1, g2, ⟨pre, post, g3a, g3b⟩, g4, _⟩ :=
    eraseByNode_found sw (insertNode cmp m.root (k, v0) m.nextId m.n).tree
      m.nextId k v0 (insertNode cmp m.root (k, v0) m.nextId m.n).n
      i5 hi2.2.2.2.2.2 hmem2
  refine ⟨⟨(insertNode cmp m.root (k, v0) m.nextId m.n).tree,
      (insertNode cmp m.root (k, v0) m.nextId m.n).n, m.nextId + 1⟩,
    ⟨(eraseByNode cmp (insertNode cmp m.root (k, v0) m.nextId m.n).tree
        m.nextId k (insertNode cmp m.root (k, v0) m.nextId m.n).n).tree,
     (eraseByNode cmp (insertNode cmp m.root (k, v0) m.nextId m.n).tree
        m.nextId k (insertNode cmp m.root (k, v0) m.nextId m.n).n).n,
     m.nextId + 1⟩, ?_, ?_, ?_, ?_⟩
  · rw [mapInsert]
    rw [i1, i2]
    rfl
  · rw [mapFind]
    exact findNode_eq_some sw i5 hmem2 ⟨sw.irrefl k, sw.irrefl k⟩
  · rw [mapErase.eq_def]
    dsimp only
    rw [if_pos g1]
  · rw [mapFind]
    refine findNode_eq_none sw g4 ?_
    intro x hx he
    have hx2 := g3b.mem_iff.1 hx
    have hndk := sortedKeys_keys_nodup sw i5
    have hknotin : k ∉ pre ++ post := by
      rw [g3a] at hndk
      intro hmm
      rcases List.mem_append.1 hmm with h2 | h2
      · rw [List.nodup_append] at hndk
        exact hndk.2.2 h2 (List.mem_cons_self _ _)
      · rw [List.nodup_append, List.nodup_cons] at hndk
        exact hndk.2.1.1 h2
    have hxk : x ∈ keys (insertNode cmp m.root (k, v0) m.nextId m.n).tree := by
      rw [g3a]
      rcases List.mem_append.1 hx2 with h2 | h2
      · exact List.mem_append.2 (Or.inl h2)
      · exact List.mem_append.2 (Or.inr (List.mem_cons_of_mem _ h2))
    have hkm2 : (keys (insertNode cmp m.root (k, v0) m.nextId m.n).tree).Perm
        (k :: keys m.root) := by
      have hp := i4.map (fun x : Nat × K × V => x.2.1)
      simpa [keys] using hp
    rcases List.mem_cons.1 (hkm2.mem_iff.1 hxk) with rfl | hxold
    · exact hknotin hx2
    · exact habs x hxold he

/-- C6: `at(key)` returns the stored value when a key equivalent to the
argument is present and signals `index_out_of_bound` exactly when none is; in
either case the map itself is left unchanged. -/
theorem c6_at {K V : Type} {cmp : K → K → Bool} (sw : IsSWO cmp)
    (m : MapState K V) (key : K) (hs : sortedKeys cmp m.root) :
    ((mapAt cmp m key).1 = Except.error Err.indexOutOfBound ↔
      ∀ x ∈ keys m.root, ¬ equivK cmp x key) ∧
    (mapAt cmp m key).2 = m := by
  cases hf : findNode cmp m.root key with
  | none =>
      rw [mapAt, hf]
      exact ⟨⟨fun _ => findNode_none_not_mem sw hs hf, fun _ => rfl⟩, rfl⟩
  | some c =>
      obtain ⟨i, k2, v2⟩ := c
      rw [mapAt, hf]
      refine ⟨⟨fun hcontra => ?_, fun hall => ?_⟩, rfl⟩
      · exact absurd hcontra (by simp)
      · have hnone := findNode_eq_none sw hs hall
        rw [hf] at hnone
        cases hnone

/-- C7: the mutable `operator[]` returns the stored value unchanged when the
key is present, and otherwise inserts a node carrying the default value and
returns that default (the map grows by one at the fresh address and the key
then maps to the default value); the const overload never inserts and signals
`index_out_of_bound` exactly when the key is absent. -/
theorem c7_bracket {K V : Type} {cmp : K → K → Bool} (sw : IsSWO cmp)
    (d0 : V) (m : MapState K V) (k : K) (hi : Inv cmp m) :
    ((∀ x ∈ keys m.root, ¬ equivK cmp x k) →
      mapBracket cmp d0 m k =
        (d0, ⟨(insertNode cmp m.root (k, d0) m.nextId m.n).tree, m.n + 1,
              m.nextId + 1⟩) ∧
      mapFind cmp (mapBracket cmp d0 m k).2 k = some (m.nextId, k, d0)) ∧
    (∀ i k2 v2, findNode cmp m.root k = some (i, k2, v2) →
      mapBracket cmp d0 m k = (v2, m)) ∧
    (mapBracketConst cmp m k = Except.error Err.indexOutOfBound ↔
      ∀ x ∈ keys m.root, ¬ equivK cmp x k) := by
  obtain ⟨hs, hok, hb, hcnt, hfr, hnd⟩ := hi
  refine ⟨?_, ?_, ?_⟩
  · intro habs
    have hf : findNode cmp m.root k = none := findNode_eq_none sw hs habs
    obtain ⟨i1, i2, i3, i4, i5⟩ := insertNode_new sw d0 m.nextId m.n m.root k hs hf
    have hi2 : Inv cmp (⟨(insertNode cmp m.root (k, d0) m.nextId m.n).tree,
        (insertNode cmp m.root (k, d0) m.nextId m.n).n, m.nextId + 1⟩ :
          MapState K V) :=
      Inv_insert_absent sw k d0 ⟨hs, hok, hb, hcnt, hfr, hnd⟩ hf
    have hmem2 : (m.nextId, k, d0) ∈
        toList (insertNode cmp m.root (k, d0) m.nextId m.n).tree :=
      i4.mem_iff.2 (List.mem_cons_self _ _)
    have hlook := lookupId_of_mem hmem2 hi2.2.2.2.2.2
    constructor
    · rw [mapBracket, hf]
      dsimp only
      rw [i2, hlook, i3]
      rfl
    · rw [mapBracket, hf]
      dsimp only
      rw [mapFind]
      exact findNode_eq_some sw i5 hmem2 ⟨sw.irrefl k, sw.irrefl k⟩
  · intro i k2 v2 hff
    rw [mapBracket, hff]
  · cases hf : findNode cmp m.root k with
    | none =>
        rw [mapBracketConst, hf]
        exact ⟨fun _ => findNode_none_not_mem sw hs hf, fun _ => rfl⟩
    | some c =>
        obtain ⟨i, k2, v2⟩ := c
        rw [mapBracketConst, hf]
        refine ⟨fun hcontra => ?_, fun hall => ?_⟩
        · exact absurd hcontra (by simp)
        · have hnone := findNode_eq_none sw hs hall
          rw [hf] at hnone
          cases hnone

/-- C9 (counterexample to the claim as stated): dereferencing the
past-the-end iterator through `operator->` does not raise
`invalid_iterator`: being `noexcept`, it returns a null pointer instead,
and a null-pointer return is not a thrown error. -/
theorem c9_counterexample :
    iterArrow (Tree.node Tree.leaf 0 1 10 1 Tree.leaf : Tree Nat Nat)
      (⟨none, true⟩ : Iter) = DerefResult.nullPtr ∧
    (DerefResult.nullPtr : DerefResult Nat Nat) ≠ DerefResult.err := by
  decide

/-- C9 (amended): on a bound iterator at a valid node both dereference forms
return the node's pair; on an unbound or past-the-end iterator `operator*`
raises `invalid_iterator` while `operator->` returns a null pointer without
raising. -/
theorem c9_deref {K V : Type} (t : Tree K V) :
    (∀ p i k v, contentAt t p = some (i, k, v) →
      iterStar t (⟨some p, true⟩ : Iter) = DerefResult.ok k v ∧
      iterArrow t (⟨some p, true⟩ : Iter) = DerefResult.ok k v) ∧
    iterStar t (⟨none, true⟩ : Iter) = DerefResult.err ∧
    (∀ c, iterStar t (⟨c, false⟩ : Iter) = DerefResult.err) ∧
    iterArrow t (⟨none, true⟩ : Iter) = DerefResult.nullPtr ∧
    (∀ c, iterArrow t (⟨c, false⟩ : Iter) = DerefResult.nullPtr) := by
  refine ⟨?_, rfl, fun c => rfl, rfl, fun c => rfl⟩
  intro p i k v hc
  constructor
  · have hh : iterStar t (⟨some p, true⟩ : Iter) =
        (match contentAt t p with
         | some (_, k, v) => DerefResult.ok k v
         | none => DerefResult.err) := rfl
    rw [hh, hc]
  · have hh : iterArrow t (⟨some p, true⟩ : Iter) =
        (match contentAt t p with
         | some (_, k, v) => DerefResult.ok k v
         | none => DerefResult.nullPtr) := rfl
    rw [hh, hc]

/-- C10: `begin()` equals `end()` exactly when the map is empty; `cbegin()`
agrees with `begin()`; and on a non-empty map `begin()` is the bound iterator
at the leftmost node, whose key precedes every other key of the map. -/
theorem c10_begin_end {K V : Type} {cmp : K → K → Bool} (sw : IsSWO cmp)
    (m : MapState K V) (hi : Inv cmp m) :
    (mapBegin m = mapEnd m ↔ m.n = 0) ∧
    mapCBegin m = mapBegin m ∧
    (m.n = 0 → (mapBegin m).cur = none) ∧
    (m.n ≠ 0 →
      ∃ p i0 km w0, mapBegin m = (⟨some p, true⟩ : Iter) ∧
        contentAt m.root p = some (i0, km, w0) ∧ km ∈ keys m.root ∧
        ∀ k2 ∈ keys m.root, k2 ≠ km → cmp km k2 = true) := by
  obtain ⟨hs, _, _, hcnt, _, _⟩ := hi
  have hleaf : m.n = 0 ↔ m.root = Tree.leaf := by
    rw [hcnt, List.length_eq_zero, toList_eq_nil]
  refine ⟨?_, rfl, ?_, ?_⟩
  · rw [hleaf]
    constructor
    · intro hbe
      have hcur : minPathOpt m.root = none := congrArg Iter.cur hbe
      cases hroot : m.root with
      | leaf => rfl
      | node a b c d e f =>
          rw [hroot] at hcur
          simp [minPathOpt] at hcur
    · intro hroot
      rw [mapBegin, mapEnd, hroot]
      rfl
  · intro h0
    rw [mapBegin, hleaf.1 h0]
    rfl
  · intro h0
    have hne : m.root ≠ Tree.leaf := fun hh => h0 (hleaf.2 hh)
    rcases hroot : m.root with _ | ⟨l0, id0, k0, v0, ht0, r0⟩
    · exact absurd hroot hne
    · have hcl := contentAt_lspine l0 r0 id0 k0 v0 ht0
      cases hT : toList (Tree.node l0 id0 k0 v0 ht0 r0) with
      | nil => exact absurd hT (toList_ne_nil _ _ _ _ _ _)
      | cons y ys =>
          obtain ⟨i0, km, w0⟩ := y
          have hkeq : keys (Tree.node l0 id0 k0 v0 ht0 r0) =
              km :: ys.map (fun x => x.2.1) := by
            rw [keys, hT]
            rfl
          rw [hroot] at hs
          rw [sortedKeys, hkeq] at hs
          refine ⟨lspine (Tree.node l0 id0 k0 v0 ht0 r0), i0, km, w0, ?_, ?_, ?_, ?_⟩
          · rw [mapBegin, hroot]
            rfl
          · rw [hcl, hT]
            rfl
          · rw [hkeq]
            exact List.mem_cons_self _ _
          · intro k2 hk2 hkne
            rw [hkeq] at hk2
            rcases List.mem_cons.1 hk2 with rfl | h2
            · exact absurd rfl hkne
            · exact pairwise_head hs k2 h2

/-- C8: decrementing an iterator retreats by exactly one position in key
order: from past-the-end on a non-empty tree it lands on the rightmost node,
which holds the maximal key; from past-the-end on an empty tree, or from the
leftmost (minimal) position, it raises `invalid_iterator`; and from any other
valid position it lands on the immediate in-order predecessor (the position
exactly one step earlier in the traversal). -/
theorem c8_iter_retreat {K V : Type} {cmp : K → K → Bool} (sw : IsSWO cmp)
    (t : Tree K V) (hs : sortedKeys cmp t) :
    (∀ l0 id0 k0 v0 ht0 r0, t = Tree.node l0 id0 k0 v0 ht0 r0 →
      ∃ mp km, iterDec t (⟨none, true⟩ : Iter) = Except.ok (some mp) ∧
        (∃ mid mv, contentAt t mp = some (mid, km, mv)) ∧
        km ∈ keys t ∧ ∀ y ∈ keys t, y = km ∨ cmp y km = true) ∧
    (t = Tree.leaf →
      iterDec t (⟨none, true⟩ : Iter) = Except.error Err.invalidIterator) ∧
    (∀ p, minPathOpt t = some p →
      iterDec t (⟨some p, true⟩ : Iter) = Except.error Err.invalidIterator) ∧
    (∀ p c0, contentAt t p = some c0 → minPathOpt t ≠ some p →
      ∃ q i, iterDec t (⟨some p, true⟩ : Iter) = Except.ok (some q) ∧
        (inorderPaths t)[i]? = some q ∧ (inorderPaths t)[i + 1]? = some p) := by
  refine ⟨?_, ?_, ?_, ?_⟩
  · intro l0 id0 k0 v0 ht0 r0 hteq
    subst hteq
    have hdec : iterDec (Tree.node l0 id0 k0 v0 ht0 r0) (⟨none, true⟩ : Iter) =
        Except.ok (some (rspine (Tree.node l0 id0 k0 v0 ht0 r0))) := rfl
    have hcr := contentAt_rspine r0 l0 id0 k0 v0 ht0
    cases hg : (toList (Tree.node l0 id0 k0 v0 ht0 r0)).getLast? with
    | none =>
        rw [List.getLast?_eq_none_iff] at hg
        exact absurd hg (toList_ne_nil _ _ _ _ _ _)
    | some c =>
        obtain ⟨mid, km, mv⟩ := c
        have hkl : (keys (Tree.node l0 id0 k0 v0 ht0 r0)).getLast? = some km := by
          rw [keys, List.getLast?_map, hg]
          rfl
        refine ⟨rspine (Tree.node l0 id0 k0 v0 ht0 r0), km, hdec,
          ⟨mid, mv, by rw [hcr, hg]⟩, mem_of_getLast?_eq hkl, ?_⟩
        exact pairwise_getLast hs hkl
  · intro hteq
    subst hteq
    rfl
  · intro p hp
    have hh : iterDec t (⟨some p, true⟩ : Iter) =
        (if minPathOpt t = some p then Except.error Err.invalidIterator
         else Except.ok (predPath t p)) := rfl
    rw [hh, if_pos hp]
  · intro p c0 hc hne
    have hmem : p ∈ inorderPaths t := mem_inorderPaths.2 ⟨c0, hc⟩
    obtain ⟨nIdx, hn⟩ := List.mem_iff_getElem?.1 hmem
    cases nIdx with
    | zero =>
        exfalso
        apply hne
        rw [minPathOpt_eq_head, List.head?_eq_getElem?]
        exact hn
    | succ j =>
        obtain ⟨q, hq, hpred⟩ := predPath_adjacent t j p hn
        have hh : iterDec t (⟨some p, true⟩ : Iter) =
            (if minPathOpt t = some p then Except.error Err.invalidIterator
             else Except.ok (predPath t p)) := rfl
        refine ⟨q, j, ?_, hq, hn⟩
        rw [hh, if_neg hne, hpred]

theorem natLt_swo : IsSWO natLt := by
  refine ⟨?_, ?_, ?_, ?_⟩
  · intro a; simp [natLt]
  · intro a b c hab hbc
    simp only [natLt, decide_eq_true_eq] at *
    omega
  · intro a b c hab hbc
    obtain ⟨h1, h2⟩ := hbc
    simp only [natLt, decide_eq_true_eq, decide_eq_false_iff_not, equivK] at *
    omega
  · intro a b c hab hbc
    obtain ⟨h1, h2⟩ := hab
    simp only [natLt, decide_eq_true_eq, decide_eq_false_iff_not, equivK] at *
    omega


/-- C1 at a concrete input: erasing the root of the three-node tree, whose
children are both present. -/
theorem c1_witness :
    ∃ sid sk sv m2,
      minNode (Tree.node Tree.leaf 2 3 30 1 Tree.leaf : Tree Nat Nat) =
        some (sid, sk, sv) ∧
      mapErase natLt exM3 (some (0, 2)) = Except.ok m2 ∧
      m2.n = exM3.n - 1 ∧ sid ≠ 0 ∧ (0, sk, sv) ∈ toList m2.root ∧
      (∃ pre2 post2, ids exM3.root = pre2 ++ sid :: post2 ∧
        (ids m2.root).Perm (pre2 ++ post2)) ∧
      (∃ pre post, keys exM3.root = pre ++ 2 :: post ∧
        (keys m2.root).Perm (pre ++ post)) :=
  c1_erase_two_children natLt_swo exM3 []
    (Tree.node Tree.leaf 1 1 10 1 Tree.leaf)
    (Tree.node Tree.leaf 2 3 30 1 Tree.leaf) 0 2 20 2
    (by decide) (by decide) rfl (by decide) (by decide)

/-- C3 at a concrete input: a short operation sequence under `natLt`. -/
theorem c3_witness :
    (keys (applyOps natLt (0 : Nat)
        [Op.ins 5 1, Op.ins 3 2, Op.ins 8 3, Op.del 5, Op.idx 4]).root).Pairwise
      (fun a b => natLt a b = true) ∧
    (keys (applyOps natLt (0 : Nat)
        [Op.ins 5 1, Op.ins 3 2, Op.ins 8 3, Op.del 5, Op.idx 4]).root).Pairwise
      (fun a b => ¬ equivK natLt a b) :=
  c3_order_invariant natLt_swo 0 [Op.ins 5 1, Op.ins 3 2, Op.ins 8 3, Op.del 5, Op.idx 4]

/-- C4 at a concrete input: re-inserting key 3, already present in `exM3`. -/
theorem c4_witness :
    ∃ i k2 v2, (i, k2, v2) ∈ toList exM3.root ∧ equivK natLt k2 3 ∧
      findNode natLt exM3.root 3 = some (i, k2, v2) ∧
      mapInsert natLt exM3 (3, 99) = (exM3, false, i) :=
  c4_duplicate_insert natLt_swo exM3 3 99 (by decide) (by decide) (by decide)
    (by decide)

/-- C5 (amended) at a concrete input: key 4 is absent from `exM3`. -/
theorem c5_round_trip_witness :
    ∃ m2 m3 : MapState Nat Nat,
      mapInsert natLt exM3 (4, 40) = (m2, true, exM3.nextId) ∧
      mapFind natLt m2 4 = some (exM3.nextId, 4, 40) ∧
      mapErase natLt m2 (some (exM3.nextId, 4)) = Except.ok m3 ∧
      mapFind natLt m3 4 = none :=
  c5_round_trip natLt_swo exM3 4 40 (by decide) (by decide)

/-- C6 at a concrete input: `at 3` on `exM3`. -/
theorem c6_witness :
    ((mapAt natLt exM3 3).1 = Except.error Err.indexOutOfBound ↔
      ∀ x ∈ keys exM3.root, ¬ equivK natLt x 3) ∧
    (mapAt natLt exM3 3).2 = exM3 :=
  c6_at natLt_swo exM3 3 (by decide)

/-- C7 at a concrete input: `operator[]` with default 0 on `exM3` at key 7. -/
theorem c7_witness :
    ((∀ x ∈ keys exM3.root, ¬ equivK natLt x 7) →
      mapBracket natLt 0 exM3 7 =
        (0, ⟨(insertNode natLt exM3.root (7, 0) exM3.nextId exM3.n).tree,
             exM3.n + 1, exM3.nextId + 1⟩) ∧
      mapFind natLt (mapBracket natLt 0 exM3 7).2 7 =
        some (exM3.nextId, 7, 0)) ∧
    (∀ i k2 v2, findNode natLt exM3.root 7 = some (i, k2, v2) →
      mapBracket natLt 0 exM3 7 = (v2, exM3)) ∧
    (mapBracketConst natLt exM3 7 = Except.error Err.indexOutOfBound ↔
      ∀ x ∈ keys exM3.root, ¬ equivK natLt x 7) :=
  c7_bracket natLt_swo 0 exM3 7 (by decide)

/-- C8 at a concrete input: iterator retreat over `exT3`. -/
theorem c8_witness :
    (∀ l0 id0 k0 v0 ht0 r0, exT3 = Tree.node l0 id0 k0 v0 ht0 r0 →
      ∃ mp km, iterDec exT3 (⟨none, true⟩ : Iter) = Except.ok (some mp) ∧
        (∃ mid mv, contentAt exT3 mp = some (mid, km, mv)) ∧
        km ∈ keys exT3 ∧ ∀ y ∈ keys exT3, y = km ∨ natLt y km = true) ∧
    (exT3 = Tree.leaf →
      iterDec exT3 (⟨none, true⟩ : Iter) = Except.error Err.invalidIterator) ∧
    (∀ p, minPathOpt exT3 = some p →
      iterDec exT3 (⟨some p, true⟩ : Iter) = Except.error Err.invalidIterator) ∧
    (∀ p c0, contentAt exT3 p = some c0 → minPathOpt exT3 ≠ some p →
      ∃ q i, iterDec exT3 (⟨some p, true⟩ : Iter) = Except.ok (some q) ∧
        (inorderPaths exT3)[i]? = some q ∧
        (inorderPaths exT3)[i + 1]? = some p) :=
  c8_iter_retreat natLt_swo exT3 (by decide)

/-- C10 at a concrete input: `begin`/`end` of `exM3`. -/
theorem c10_witness :
    (mapBegin exM3 = mapEnd exM3 ↔ exM3.n = 0) ∧
    mapCBegin exM3 = mapBegin exM3 ∧
    (exM3.n = 0 → (mapBegin exM3).cur = none) ∧
    (exM3.n ≠ 0 →
      ∃ p i0 km w0, mapBegin exM3 = (⟨some p, true⟩ : Iter) ∧
        contentAt exM3.root p = some (i0, km, w0) ∧ km ∈ keys exM3.root ∧
        ∀ k2 ∈ keys exM3.root, k2 ≠ km → natLt km k2 = true) :=
  c10_begin_end natLt_swo exM3 (by decide)

end AvlMap
